import Mathlib

/-!
Verification development for the raster-to-H3 conversion engine of the
h3ronpy repository (crate h3-raster, file src/rasterconverter.rs).

The Rust source is shallowly embedded: pure helper functions are translated
directly, the worklist loops (pixel region growing, the two hex flood fills,
the outer cluster loop) are expressed with an explicit step function driven
by a generic fueled iterator `loopF`, and the fuel bounds are justified by
stability theorems (running with more fuel does not change the result).
External capabilities that the converter consumes (the geotransform, the H3
library's cell/coordinate/k-ring operations) are abstracted into a context
structure `Ctx` of function parameters, exactly at the granularity at which
src/rasterconverter.rs calls them.  Types that belong to this repository but
whose defining files are not available (tile.rs, input.rs, the h3 crate's
`H3IndexStack`) are modelled from the specification and marked as such in
their doc comments.
-/

namespace H3Raster

variable {α β γ ι Coord : Type}

/-- Modelled from the spec: the pixel value type of input.rs (not under
src/).  "A tagged variant carrying one primitive numeric class (unsigned
8/16/32, signed 16/32, float 32/64). Equality and hash are defined per
variant; floats compare bitwise."  Floating point variants therefore carry
their bit pattern as a natural number, which makes equality the bitwise
equality the source prescribes. -/
inductive Value : Type
  | uint8 (v : ℕ)
  | uint16 (v : ℕ)
  | uint32 (v : ℕ)
  | int16 (v : ℤ)
  | int32 (v : ℤ)
  | float32 (bits : ℕ)
  | float64 (bits : ℕ)
deriving DecidableEq

/-- An attribute vector: one classified value (`Option Value`, `none` is
"no-data") per input band, as in convertedraster.rs. -/
abbrev Attributes : Type := List (Option Value)

/-- Modelled from the spec: the tile descriptor of tile.rs (not under
src/): "origin in pixel coordinates (column, row), size (width, height)". -/
structure Tile : Type where
  offset_origin : ℕ × ℕ
  size : ℕ × ℕ
deriving DecidableEq

/-- Modelled from the spec: `Tile::to_tile_relative_pixel` of tile.rs (not
under src/) converts an absolute raster pixel to a pixel relative to the
tile's origin, i.e. it subtracts the origin componentwise (usize
subtraction, hence truncated at 0). -/
def Tile.to_tile_relative_pixel (t : Tile) (p : ℕ × ℕ) : ℕ × ℕ :=
  (p.1 - t.offset_origin.1, p.2 - t.offset_origin.2)

/-- Modelled from the spec: `Tile::center_pixel` of tile.rs (not under
src/): the absolute pixel at the center of the tile ("the H3 cell at the
tile's center pixel" seeds sweep mode). -/
def Tile.center_pixel (t : Tile) : ℕ × ℕ :=
  (t.offset_origin.1 + t.size.1 / 2, t.offset_origin.2 + t.size.2 / 2)

/-- Source rasterconverter.rs lines 219-222: `pixel_to_array_position`.
The argument `tile_pixel` is a (column, row) pair; the result is
`row * width + column`. -/
def pixel_to_array_position (tile_pixel : ℕ × ℕ) (tile_size : ℕ × ℕ) : ℕ :=
  tile_pixel.2 * tile_size.1 + tile_pixel.1

/-- Source rasterconverter.rs lines 224-227: `array_position_to_pixel`
returns `(array_pos / tile_size.0, array_pos % tile_size.0)`, i.e. the pair
(row, column) - note the component order relative to
`pixel_to_array_position`. -/
def array_position_to_pixel (array_pos : ℕ) (tile_size : ℕ × ℕ) : ℕ × ℕ :=
  (array_pos / tile_size.1, array_pos % tile_size.1)

/-- Rust's `as usize` cast from a (64-bit) signed integer: reduction
modulo 2^64. -/
def usizeOfInt (z : ℤ) : ℕ :=
  (z % (2 ^ 64 : ℤ)).toNat

/-- Generic fueled worklist iterator.  One unit of fuel is one iteration of
the embedded Rust `while` loop; `step` returns `none` when the loop's
worklist is exhausted, and `out` extracts the loop's result from its final
state.  Each concrete loop below is given a fuel bound proved sufficient by
a stability theorem. -/
def loopF (step : σ → Option σ) (out : σ → ρ) : ℕ → σ → ρ
  | 0, s => out s
  | n + 1, s =>
    match step s with
    | none => out s
    | some s' => loopF step out n s'

/-- Key set of an association-list model of a Rust `HashMap<usize, T>`. -/
def keysOfMap (m : List (ℕ × α)) : Finset ℕ :=
  (m.map Prod.fst).toFinset

/-- Source rasterconverter.rs lines 471-484: the doubly nested neighbor
loop of `grow_region_starting_with_index`.  `pos` is the (quotient,
remainder) pair returned by `array_position_to_pixel`; the guards and index
arithmetic are reproduced exactly, including the comparisons of `pos.0`
against `tile_size.0` and `pos.1` against `tile_size.1` and the
`as isize`/`as usize` casts.  The keys are listed in the source's push
order. -/
def growNeighborKeys (pos : ℕ × ℕ) (tile_size : ℕ × ℕ) : List ℕ :=
  ([-1, 0, 1] : List ℤ).flatMap (fun i =>
    if (pos.1 = 0 ∧ i = -1) ∨ (pos.1 = tile_size.1 ∧ i = 1) then [] else
      ([-1, 0, 1] : List ℤ).flatMap (fun j =>
        if (pos.2 = 0 ∧ j = -1) ∨ (pos.2 = tile_size.2 ∧ j = 1) then [] else
          [pixel_to_array_position
            (usizeOfInt ((pos.2 : ℤ) + j), usizeOfInt ((pos.1 : ℤ) + i))
            tile_size]))

/-- Source rasterconverter.rs lines 461-486: one iteration of the
region-growing worklist loop.  The `VecDeque` is used as a LIFO
(`push_back`/`pop_back`), modelled as a list whose head is the back;
consecutive `push_back`s therefore prepend the new keys in reverse push
order. -/
def growStep (keys : Finset ℕ) (tile_size : ℕ × ℕ) :
    List ℕ × Finset ℕ → Option (List ℕ × Finset ℕ)
  | ([], _) => none
  | (next :: rest, cl) =>
    if next ∉ keys then some (rest, cl)
    else if next ∈ cl then some (rest, cl)
    else
      let cl' := insert next cl
      let pos := array_position_to_pixel next tile_size
      let pushes := (growNeighborKeys pos tile_size).filter (fun k => decide (k ∉ cl'))
      some (pushes.reverse ++ rest, cl')

/-- Source rasterconverter.rs lines 456-488: `grow_region_starting_with_index`.
The `HashMap` argument is modelled as an association list (only
`contains_key` is used, via `keysOfMap`).  The fuel `1 + 9 * #keys` bounds
the number of loop iterations; theorem `converter_loops_terminate` proves
it exact. -/
def grow_region_starting_with_index (index_hashmap : List (ℕ × α))
    (start_index : ℕ) (tile_size : ℕ × ℕ) : Finset ℕ :=
  loopF (growStep (keysOfMap index_hashmap) tile_size) (fun s => s.2)
    (1 + 9 * (keysOfMap index_hashmap).card) ([start_index], ∅)

/-- Column and row of a dense array position, written from the spec's words
for the reference notion of 8-connectivity ("Pixel-to-array-position is
`row*width + col`"): position `pos` denotes the pixel
`(pos % width, pos / width)` as a (column, row) pair. -/
def pixelColRow (pos : ℕ) (tile_size : ℕ × ℕ) : ℕ × ℕ :=
  (pos % tile_size.1, pos / tile_size.1)

/-- Reference definition, from the spec's words: two array positions are
8-connected neighbors when they are distinct and their columns and rows
each differ by at most one ("8-connected neighbors (including
diagonals)"). -/
def adjacent8 (p q : ℕ) (tile_size : ℕ × ℕ) : Bool :=
  decide (p ≠ q) &&
    decide ((((pixelColRow p tile_size).1 : ℤ) - ((pixelColRow q tile_size).1 : ℤ)).natAbs ≤ 1) &&
    decide ((((pixelColRow p tile_size).2 : ℤ) - ((pixelColRow q tile_size).2 : ℤ)).natAbs ≤ 1)

/-- Reference definition, from the spec's words: one expansion step of the
8-connected closure inside the occupied key set. -/
def expand8 (keys : Finset ℕ) (tile_size : ℕ × ℕ) (s : Finset ℕ) : Finset ℕ :=
  s ∪ keys.filter (fun q => ∃ p ∈ s, adjacent8 p q tile_size = true)

/-- Reference definition, from the spec's words: "the set of all positions
reachable from the seed through 8-connected neighbors (including diagonals)
that are also occupied", i.e. the 8-connected component of the seed within
the occupied key set (empty when the seed is unoccupied).  Iterating the
one-step closure `#keys` times reaches the fixed point. -/
def specConnectedComponent8 (keys : Finset ℕ) (seed : ℕ) (tile_size : ℕ × ℕ) : Finset ℕ :=
  if seed ∈ keys then (fun s => expand8 keys tile_size s)^[keys.card] {seed} else ∅

/-- Source rasterconverter.rs line 149: the algorithm-selection test
`(n_h3indexes as f64 * 0.9) as usize > n_pixels`.  The `as usize` cast
truncates the float product toward zero, so the comparison is
`floor(0.9 * H) > P`.  The float product is modelled with the exact
rational 9/10 (natural-number division is the floor): the f64 literal 0.9
exceeds 9/10 by less than 2^-53, so for every `n_h3indexes` small enough
that the product is exact to within the distance to the next integer (in
particular for all inputs used below) the model agrees bit-for-bit with
the source. -/
def selects_cluster_mode (n_h3indexes n_pixels : ℕ) : Bool :=
  decide (n_h3indexes * 9 / 10 > n_pixels)

/-- External capabilities consumed by one worker for one tile, exactly at
the granularity at which src/rasterconverter.rs calls them: the
geotransform (`pixel_to_coordinate`, `coordinate_to_pixel`), the H3
library (`from_coordinate` at the subset's resolution, `cell_coordinate`,
`k_ring1`), the containment test against the tile's precomputed
geographic bounds (`rect_contains_bounds`, i.e.
`rect_contains(&tile_bounds, ·)`), the H3 parent/children hierarchy used
by the modelled `H3IndexStack` compaction, and `bound`, an upper bound on
the number of distinct H3 cells (2^64 for the real `H3Index`), used to
compute the fuel of the hex flood fills. -/
structure Ctx (ι : Type) (Coord : Type) : Type where
  pixel_to_coordinate : ℕ × ℕ → Coord
  coordinate_to_pixel : Coord → ℕ × ℕ
  from_coordinate : Coord → ι
  cell_coordinate : ι → Coord
  k_ring1 : ι → List ι
  rect_contains_bounds : Coord → Bool
  parentCell : ι → ι
  childCells : ι → List ι
  bound : ℕ

/-- Source rasterconverter.rs lines 40-45: one tile's payload handed to a
worker (the geotransform copy lives in `Ctx`). -/
structure ConversionSubset : Type where
  tile : Tile
  banddata : List (List (Option Value))
  h3_resolution : ℕ

/-- The array position of a cell's center pixel: the cell's center
coordinate mapped through the geotransform inverse, made tile-relative,
and flattened.  This composite appears verbatim three times in the source
(lines 314-316, 336-338, 405-409). -/
def cellArrayPos (ctx : Ctx ι Coord) (subset : ConversionSubset) (cell : ι) : ℕ :=
  pixel_to_array_position
    (subset.tile.to_tile_relative_pixel (ctx.coordinate_to_pixel (ctx.cell_coordinate cell)))
    subset.tile.size

/-- Source rasterconverter.rs lines 411-419: the attribute vector read at
an array position, one classified value per band; a missing value (out of
range read) yields "no-data". -/
def readAttributes (banddata : List (List (Option Value))) (array_pos : ℕ) : Attributes :=
  banddata.map (fun bd =>
    match bd.get? array_pos with
    | some v => v
    | none => none)

/-- Modelled from the spec: the h3 crate's `H3IndexStack` (not under
src/), "a hierarchical container of H3 cells across resolutions",
represented as a list of (resolution, cells) groups. -/
abbrev H3IndexStack (ι : Type) : Type := List (ℕ × List ι)

/-- Cells stored in a stack at one resolution. -/
def stackCellsAt (s : H3IndexStack ι) (res : ℕ) : List ι :=
  s.flatMap (fun e => if e.1 = res then e.2 else [])

/-- All cells stored in a stack, at every resolution. -/
def allStackCells (s : H3IndexStack ι) : List ι :=
  s.flatMap (fun e => e.2)

/-- Largest resolution key present in a stack. -/
def maxStackRes (s : H3IndexStack ι) : ℕ :=
  (s.map Prod.fst).foldr max 0

/-- Decidable list membership with one fixed instance derivation, used
by the compaction model (Rust `Vec::contains`). -/
def elemBy [DecidableEq γ] (x : γ) (l : List γ) : Bool :=
  decide (x ∈ l)

/-- Modelled from the spec: one level of hierarchical compaction,
"replacement of seven sibling children at resolution r by their parent at
resolution r-1": every parent all of whose children are present at
resolution `res` is added at `res - 1` and its children are removed. -/
def compactLevelStep [DecidableEq ι] (parentCell : ι → ι) (childCells : ι → List ι)
    (res : ℕ) (s : H3IndexStack ι) : H3IndexStack ι :=
  let atRes := stackCellsAt s res
  let parents := ((atRes.map parentCell).dedup).filter
    (fun p => (childCells p).all (fun c => elemBy c atRes))
  if parents.isEmpty then s
  else
    (res - 1, parents) ::
      s.map (fun e =>
        if e.1 = res then (e.1, e.2.filter (fun c => ! elemBy (parentCell c) parents)) else e)

/-- Modelled from the spec: `H3IndexStack::compact`, hierarchical
compaction "applied recursively" - one `compactLevelStep` per resolution
level, from the finest level present down to resolution 1, so parents
produced at one level can themselves be compacted at the next. -/
def compactStack [DecidableEq ι] (parentCell : ι → ι) (childCells : ι → List ι)
    (s : H3IndexStack ι) : H3IndexStack ι :=
  (List.range (maxStackRes s)).foldl
    (fun acc k => compactLevelStep parentCell childCells (maxStackRes s - k) acc) s

/-- Modelled from the spec: `H3IndexStack::append_to_resolution(res,
cells, compact)` - insert the cells at the given resolution, draining the
source vector, and compact when the flag is set. -/
def append_to_resolution [DecidableEq ι] (ctx : Ctx ι Coord) (s : H3IndexStack ι)
    (res : ℕ) (cells : List ι) (compact : Bool) : H3IndexStack ι :=
  let s' := (res, cells) :: s
  if compact then compactStack ctx.parentCell ctx.childCells s' else s'

/-- The `GroupedH3Indexes` map of convertedraster.rs (not under src/;
"a mapping from attribute vector to HexStack"), modelled as an
association list with unique keys maintained by `modifyEntry`. -/
abbrev GroupedH3Indexes (ι : Type) : Type := List (Attributes × H3IndexStack ι)

/-- Lookup in an association list keyed by attribute vectors, with a
default for absent keys. -/
def getEntryA (m : List (Attributes × β)) (attrs : Attributes) (dflt : β) : β :=
  ((m.find? (fun e => decide (e.1 = attrs))).map Prod.snd).getD dflt

/-- The Rust `entry(key).or_insert_with(default)` update: modify the
existing entry in place, or append a new entry holding `f dflt`. -/
def setEntryA (m : List (Attributes × β)) (attrs : Attributes) (dflt : β) (f : β → β) :
    List (Attributes × β) :=
  if m.any (fun e => decide (e.1 = attrs)) then
    m.map (fun e => if e.1 = attrs then (e.1, f e.2) else e)
  else m ++ [(attrs, f dflt)]

/-- `entry(attrs).or_insert_with(H3IndexStack::new)` followed by a stack
operation. -/
def modifyEntry (g : GroupedH3Indexes ι) (attrs : Attributes)
    (f : H3IndexStack ι → H3IndexStack ι) : GroupedH3Indexes ι :=
  setEntryA g attrs [] f

/-- The stack a grouped result holds for a key (empty when absent). -/
def getStack (g : GroupedH3Indexes ι) (attrs : Attributes) : H3IndexStack ι :=
  getEntryA g attrs []

/-- Association-list lookup keyed by array positions. -/
def lookupMap (m : List (ℕ × α)) (k : ℕ) : Option α :=
  ((m.find? (fun e => decide (e.1 = k))).map Prod.snd)

/-- Source rasterconverter.rs lines 256-282: zip the band vectors by
array position and keep only the positions whose attribute vector has one
entry per band and at least one value that is not "no-data".  The source
stores these in a `HashMap` keyed by position; the model lists them in
ascending position order. -/
def buildAttributesByPos (banddata : List (List (Option Value))) : List (ℕ × Attributes) :=
  let n_bands := banddata.length
  let maxLen := (banddata.map List.length).foldr max 0
  (List.range maxLen).filterMap (fun idx =>
    let pixel_vec : Attributes := banddata.filterMap (fun bd => bd.get? idx)
    if pixel_vec.length = n_bands ∧ pixel_vec.any (fun v => v.isSome) then
      some (idx, pixel_vec)
    else none)

/-- Source rasterconverter.rs lines 296-323: find the first h3 index
located inside the cluster - walk the cluster positions (the source
iterates the `HashSet` in arbitrary order; the model receives the
cluster's elements as the list `clusterIter`, in ascending position
order), take the cell of the pixel's coordinate, and accept it when its
center lies in the tile bounds and its center pixel belongs to the
cluster.  `pixel_in_tile` is the (row, column) pair from
`array_position_to_pixel`, so the coordinate argument is
`(origin.0 + pixel_in_tile.1, origin.1 + pixel_in_tile.0)` exactly as in
the source. -/
def find_first_index_in_cluster (ctx : Ctx ι Coord) (subset : ConversionSubset)
    (clusterIter : List ℕ) (cluster : Finset ℕ) : Option ι :=
  clusterIter.findSome? (fun cluster_pos =>
    let pixel_in_tile := array_position_to_pixel cluster_pos subset.tile.size
    let index := ctx.from_coordinate (ctx.pixel_to_coordinate
      (subset.tile.offset_origin.1 + pixel_in_tile.2,
       subset.tile.offset_origin.2 + pixel_in_tile.1))
    let coordinate := ctx.cell_coordinate index
    if ¬ ctx.rect_contains_bounds coordinate = true then none
    else if cellArrayPos ctx subset index ∈ cluster then some index
    else none)

/-- Enqueue the 1-ring neighbors that are neither visited nor scheduled,
scheduling each as it is pushed (source lines 346-351 and 436-441); the
queue is a FIFO (`push_back`/`pop_front`), so pushes append at the
tail. -/
def enqueueNeighbors [DecidableEq ι] (neighbors : List ι) (visited : Finset ι)
    (queue : List ι) (scheduled : Finset ι) : List ι × Finset ι :=
  neighbors.foldl
    (fun acc neighbor =>
      if neighbor ∈ visited ∨ neighbor ∈ acc.2 then acc
      else (acc.1 ++ [neighbor], insert neighbor acc.2))
    (queue, scheduled)

/-- State of the hex flood fill inside cluster mode (source lines
292-293, 325, 285). -/
structure ClusterBFS (ι : Type) : Type where
  queue : List ι
  visited : Finset ι
  scheduled : Finset ι
  ita : List (Attributes × List ι)

/-- Source rasterconverter.rs lines 328-353: one iteration of the hex
region growing over one pixel cluster.  A dequeued cell is marked
visited; cells whose center is outside the tile bounds or whose center
pixel is outside the cluster are dropped; otherwise the cell is recorded
under the attributes found at its center pixel and its unseen 1-ring
neighbors are scheduled. -/
def clusterBFSStep [DecidableEq ι] (ctx : Ctx ι Coord) (subset : ConversionSubset)
    (m : List (ℕ × Attributes)) (cluster : Finset ℕ) (s : ClusterBFS ι) :
    Option (ClusterBFS ι) :=
  match s.queue with
  | [] => none
  | this :: rest =>
    let visited' := insert this s.visited
    let coordinate := ctx.cell_coordinate this
    if ¬ ctx.rect_contains_bounds coordinate = true then
      some { s with queue := rest, visited := visited' }
    else
      let this_index_pos := cellArrayPos ctx subset this
      if this_index_pos ∉ cluster then
        some { s with queue := rest, visited := visited' }
      else
        match lookupMap m this_index_pos with
        | some attributes =>
          let ita' := setEntryA s.ita attributes [] (fun v => v ++ [this])
          let qs := enqueueNeighbors (ctx.k_ring1 this) visited' rest s.scheduled
          some { queue := qs.1, visited := visited', scheduled := qs.2, ita := ita' }
        | none =>
          some { s with queue := rest, visited := visited' }

/-- The hex region growing of cluster mode, seeded with the entry cell
(pushed and scheduled, source lines 319-320). -/
def cluster_hex_grow [DecidableEq ι] (ctx : Ctx ι Coord) (subset : ConversionSubset)
    (m : List (ℕ × Attributes)) (cluster : Finset ℕ) (entry : ι)
    (ita : List (Attributes × List ι)) : List (Attributes × List ι) :=
  loopF (clusterBFSStep ctx subset m cluster) (fun s => s.ita) (1 + 2 * ctx.bound)
    { queue := [entry], visited := ∅, scheduled := {entry}, ita := ita }

/-- Source rasterconverter.rs lines 292-353: the per-cluster work of one
outer-loop iteration - search the cluster for an entry cell (the cluster
positions are iterated as the live map's keys restricted to the cluster,
which is exactly the cluster's element set since grown positions are map
keys) and, when one exists, run the hex flood fill over the cluster. -/
def clusterProcessOne [DecidableEq ι] (ctx : Ctx ι Coord) (subset : ConversionSubset)
    (m : List (ℕ × Attributes)) (cluster : Finset ℕ)
    (ita : List (Attributes × List ι)) : List (Attributes × List ι) :=
  match find_first_index_in_cluster ctx subset
      ((m.map Prod.fst).filter (fun p => decide (p ∈ cluster))) cluster with
  | some entry => cluster_hex_grow ctx subset m cluster entry ita
  | none => ita

/-- Source rasterconverter.rs lines 287-358: one iteration of the outer
cluster loop - pick a remaining position as seed (the model takes the
first entry of the list, the source takes `iter().next()` of the
`HashMap`), grow its pixel cluster, hex-fill it when an entry cell
exists, then retire every cluster position from the map. -/
def clusterOuterStep [DecidableEq ι] (ctx : Ctx ι Coord) (subset : ConversionSubset) :
    List (ℕ × Attributes) × List (Attributes × List ι) →
      Option (List (ℕ × Attributes) × List (Attributes × List ι))
  | ([], _) => none
  | ((array_pos, attrs₀) :: restMap, ita) =>
    let m := (array_pos, attrs₀) :: restMap
    let cluster := grow_region_starting_with_index m array_pos subset.tile.size
    some (m.filter (fun kv => decide (kv.1 ∉ cluster)),
      clusterProcessOne ctx subset m cluster ita)

/-- The cluster-mode collection phase: the outer loop of
`convert_subset_by_filtering_and_region_growing` (source lines 256-358),
producing the `indexes_to_add` map.  Each iteration retires at least its
seed from the positional map, so the map's length bounds the number of
iterations (theorem `converter_loops_terminate`). -/
def cluster_collect [DecidableEq ι] (ctx : Ctx ι Coord) (subset : ConversionSubset) :
    List (Attributes × List ι) :=
  let m₀ := buildAttributesByPos subset.banddata
  loopF (clusterOuterStep ctx subset) (fun s => s.2) m₀.length (m₀, [])

/-- Source rasterconverter.rs lines 234-376:
`convert_subset_by_filtering_and_region_growing` - the collection phase
followed by the fold of `indexes_to_add` into the grouped result (lines
361-372; the per-value clone of the attribute vector is the identity in
the model). -/
def convert_subset_by_filtering_and_region_growing [DecidableEq ι] (ctx : Ctx ι Coord)
    (subset : ConversionSubset) (compact : Bool) : GroupedH3Indexes ι :=
  (cluster_collect ctx subset).foldl
    (fun g e =>
      modifyEntry g e.1 (fun st => append_to_resolution ctx st subset.h3_resolution e.2 compact))
    []

/-- State of the sweep-mode flood fill (source lines 381-395). -/
structure SweepState (ι : Type) : Type where
  queue : List ι
  visited : Finset ι
  scheduled : Finset ι
  buckets : List (Attributes × List ι)
  grouped : GroupedH3Indexes ι

/-- Source rasterconverter.rs lines 396-442: one iteration of the
sweep-mode loop.  A dequeued cell is marked visited and unscheduled;
out-of-bounds cells are dropped before enqueueing anything; otherwise the
attribute vector at the cell's center pixel is read, the cell is pushed
into its attribute bucket when the vector is present (flushing the bucket
into the grouped stack when it exceeds 20000 cells), and the unseen
1-ring neighbors are scheduled regardless of presence. -/
def sweepStep [DecidableEq ι] (ctx : Ctx ι Coord) (subset : ConversionSubset)
    (compact : Bool) (s : SweepState ι) : Option (SweepState ι) :=
  match s.queue with
  | [] => none
  | this :: rest =>
    let visited' := insert this s.visited
    let scheduled' := s.scheduled.erase this
    let coordinate := ctx.cell_coordinate this
    if ¬ ctx.rect_contains_bounds coordinate = true then
      some { s with queue := rest, visited := visited', scheduled := scheduled' }
    else
      let array_pos := cellArrayPos ctx subset this
      let attributes := readAttributes subset.banddata array_pos
      let bg :=
        if attributes.any (fun a => a.isSome) then
          let target_vec := getEntryA s.buckets attributes [] ++ [this]
          if target_vec.length > 20000 then
            (setEntryA s.buckets attributes [] (fun _ => []),
             modifyEntry s.grouped attributes
               (fun st => append_to_resolution ctx st subset.h3_resolution target_vec compact))
          else
            (setEntryA s.buckets attributes [] (fun _ => target_vec), s.grouped)
        else (s.buckets, s.grouped)
      let qs := enqueueNeighbors (ctx.k_ring1 this) visited' rest scheduled'
      some { queue := qs.1, visited := visited', scheduled := qs.2,
             buckets := bg.1, grouped := bg.2 }

/-- Source rasterconverter.rs lines 444-448: the end-of-loop drain of the
remaining buckets into the grouped result. -/
def sweepOut [DecidableEq ι] (ctx : Ctx ι Coord) (subset : ConversionSubset)
    (compact : Bool) (s : SweepState ι) : GroupedH3Indexes ι :=
  s.buckets.foldl
    (fun g e =>
      modifyEntry g e.1 (fun st => append_to_resolution ctx st subset.h3_resolution e.2 compact))
    s.grouped

/-- Source rasterconverter.rs lines 380-451:
`convert_subset_by_checking_index_positions`, seeded with the cell at the
tile's center pixel. -/
def convert_subset_by_checking_index_positions [DecidableEq ι] (ctx : Ctx ι Coord)
    (subset : ConversionSubset) (compact : Bool) : GroupedH3Indexes ι :=
  loopF (sweepStep ctx subset compact) (sweepOut ctx subset compact) (1 + 2 * ctx.bound)
    { queue := [ctx.from_coordinate (ctx.pixel_to_coordinate subset.tile.center_pixel)],
      visited := ∅, scheduled := ∅, buckets := [], grouped := [] }

/-- The (attributes, cell) pairs held by an `indexes_to_add` map. -/
def emittedPairs (ita : List (Attributes × List ι)) : List (Attributes × ι) :=
  ita.flatMap (fun e => e.2.map (fun c => (e.1, c)))

/-- The pairs cluster mode emits for a tile: the contents of its
`indexes_to_add` map.  The compact flag plays no role in the collection
phase (it is only consulted when folding into the stacks), so this is the
emission of the converter for either flag value. -/
def cluster_emitted [DecidableEq ι] (ctx : Ctx ι Coord) (subset : ConversionSubset) :
    List (Attributes × ι) :=
  emittedPairs (cluster_collect ctx subset)

/-- The (attributes, cell) pairs a grouped result holds at one
resolution. -/
def groupedPairsAt (g : GroupedH3Indexes ι) (res : ℕ) : List (Attributes × ι) :=
  g.flatMap (fun e => (stackCellsAt e.2 res).map (fun c => (e.1, c)))

/-- The pairs sweep mode emits for a tile, read off the uncompacted run:
with `compact = false` every append is a plain insertion at the target
resolution, so the grouped stacks hold exactly the pushed cells.  The
traversal, the buckets and the flush points are identical for both flag
values (the flag is only consulted inside the stack appends), so this is
the emission of the converter for either flag value. -/
def sweep_emitted [DecidableEq ι] (ctx : Ctx ι Coord) (subset : ConversionSubset) :
    List (Attributes × ι) :=
  groupedPairsAt (convert_subset_by_checking_index_positions ctx subset false)
    subset.h3_resolution

/-- The invariant carried by cluster mode's `indexes_to_add` map: every
entry is nonempty and every recorded cell is witnessed by an entry of the
initial positional map whose position is the cell's center pixel and
whose stored vector is the entry's key. -/
def goodIta (ctx : Ctx ι Coord) (subset : ConversionSubset)
    (ita : List (Attributes × List ι)) : Prop :=
  ∀ e ∈ ita, e.2 ≠ [] ∧ ∀ c ∈ e.2,
    ∃ me ∈ buildAttributesByPos subset.banddata,
      me.1 = cellArrayPos ctx subset c ∧ me.2 = e.1

/-- The per-pair invariant of sweep mode: the attribute vector a pair is
recorded under is the one read at its cell's center pixel. -/
def sweepPairProp (ctx : Ctx ι Coord) (subset : ConversionSubset)
    (p : Attributes × ι) : Prop :=
  readAttributes subset.banddata (cellArrayPos ctx subset p.2) = p.1

/-- The invariant of the sweep-mode loop state (for the uncompacted run):
every pair in the buckets and every resolution-r pair in the grouped
stacks satisfies `sweepPairProp`. -/
def goodSweep (ctx : Ctx ι Coord) (subset : ConversionSubset) (s : SweepState ι) : Prop :=
  (∀ p ∈ emittedPairs s.buckets, sweepPairProp ctx subset p) ∧
  (∀ p ∈ groupedPairsAt s.grouped subset.h3_resolution, sweepPairProp ctx subset p)

/-- The concrete context used by the witness theorems: a one-cell
universe over a trivial coordinate type. -/
def witnessCtx : Ctx (Fin 4) Unit where
  pixel_to_coordinate := fun _ => ()
  coordinate_to_pixel := fun _ => (0, 0)
  from_coordinate := fun _ => 0
  cell_coordinate := fun _ => ()
  k_ring1 := fun _ => []
  rect_contains_bounds := fun _ => true
  parentCell := id
  childCells := fun _ => []
  bound := 4

/-- The concrete one-band, one-pixel subset used by the witness
theorems. -/
def witnessSubset : ConversionSubset where
  tile := { offset_origin := (0, 0), size := (1, 1) }
  banddata := [[some (Value.uint8 5)]]
  h3_resolution := 3

/-- The key-presence invariant of the sweep loop for either compact
flag: every key of the buckets and of the grouped result has a value
that is not no-data. -/
def sweepKeysPresent (s : SweepState ι) : Prop :=
  (∀ k ∈ s.buckets.map Prod.fst, k.any (fun a => a.isSome) = true) ∧
  (∀ k ∈ s.grouped.map Prod.fst, k.any (fun a => a.isSome) = true)

/-- An all-no-data variant of the witness subset. -/
def witnessSubsetNoData : ConversionSubset where
  tile := { offset_origin := (0, 0), size := (1, 1) }
  banddata := [[none]]
  h3_resolution := 3

/-- The measure that bounds the region grower's iterations: queue length
plus nine per unvisited occupied position. -/
def growMeasure (keys : Finset ℕ) (s : List ℕ × Finset ℕ) : ℕ :=
  s.1.length + 9 * ((keys \ s.2).card)

/-- The measure that bounds both hex flood fills: queue length plus two
per cell not yet scheduled or visited. -/
def bfsMeasure [DecidableEq ι] (bound : ℕ) (queue : List ι)
    (scheduled visited : Finset ι) : ℕ :=
  queue.length + 2 * (bound - (scheduled ∪ visited).card)

/-- Path-encoded H3 cells for the compaction claim: a cell is its digit
path from the root, its resolution is the path length, its parent drops
the last digit and its children append one of seven digits.  This is the
hierarchy the spec's compaction operates on ("replacement of seven
sibling children at resolution r by their parent at resolution r-1"). -/
abbrev PathCell : Type := List (Fin 7)

/-- The parent of a path cell: drop the last digit. -/
def pathParent (c : PathCell) : PathCell := c.dropLast

/-- The seven children of a path cell: append each digit. -/
def pathChildren (p : PathCell) : List PathCell :=
  (List.finRange 7).map (fun d => p ++ [d])

/-- The geographic footprint of a path cell: the set of infinite digit
sequences that extend its path.  A parent's footprint is exactly the
union of its children's, which is what makes compaction
coverage-preserving. -/
def cover (c : PathCell) : Set (ℕ → Fin 7) :=
  { f | ∀ i, i < c.length → c.get? i = some (f i) }

/-- Footprint of a list of cells. -/
def coverList (l : List PathCell) : Set (ℕ → Fin 7) :=
  { f | ∃ c ∈ l, f ∈ cover c }

/-- Footprint of a stack: the union of its cells' footprints at every
resolution. -/
def coverStack (s : H3IndexStack PathCell) : Set (ℕ → Fin 7) :=
  coverList (allStackCells s)

/-- Footprint a grouped result assigns to one attribute key. -/
def coverKey (g : GroupedH3Indexes PathCell) (k : Attributes) : Set (ℕ → Fin 7) :=
  { f | ∃ e ∈ g, e.1 = k ∧ f ∈ coverStack e.2 }

/-- Source rasterconverter.rs lines 163-189: the aggregator thread -
drain each per-tile grouped result into the global map with uncompacted
appends (`append(&mut stack, false)`, line 170), then, when the compact
flag is set, compact every per-attribute stack exactly once (lines
183-187).  The per-tile results are processed in arrival order, modelled
as a list. -/
def aggregate [DecidableEq ι] (parentCell : ι → ι) (childCells : ι → List ι)
    (results : List (GroupedH3Indexes ι)) (compact : Bool) : GroupedH3Indexes ι :=
  let merged := results.foldl
    (fun acc gi => gi.foldl
      (fun acc2 e => modifyEntry acc2 e.1 (fun st => st ++ e.2)) acc) []
  if compact then merged.map (fun e => (e.1, compactStack parentCell childCells e.2))
  else merged

/-- The per-tile geometry capabilities of one job, for the path-cell
instantiation (the hierarchy fields of the context are fixed to the path
hierarchy by `pathCtx`). -/
structure PathGeo (Coord : Type) : Type where
  pixel_to_coordinate : ℕ × ℕ → Coord
  coordinate_to_pixel : Coord → ℕ × ℕ
  from_coordinate : Coord → PathCell
  cell_coordinate : PathCell → Coord
  k_ring1 : PathCell → List PathCell
  rect_contains_bounds : Coord → Bool
  bound : ℕ

/-- A worker context over path cells: arbitrary geometry, path
hierarchy. -/
def pathCtx (geo : PathGeo Coord) : Ctx PathCell Coord where
  pixel_to_coordinate := geo.pixel_to_coordinate
  coordinate_to_pixel := geo.coordinate_to_pixel
  from_coordinate := geo.from_coordinate
  cell_coordinate := geo.cell_coordinate
  k_ring1 := geo.k_ring1
  rect_contains_bounds := geo.rect_contains_bounds
  parentCell := pathParent
  childCells := pathChildren
  bound := geo.bound

/-- Source rasterconverter.rs lines 118-211 (`convert_tiles`), cell-set
view: each job carries its tile's capabilities, its subset and the mode
the density heuristic chose for it (`true` = cluster mode, line 149);
the workers' grouped results are merged by the aggregator and optionally
compacted once at the end.  Thread count and interleaving only permute
`jobs`, over which the coverage theorem quantifies. -/
def convert_tiles_cover_model (jobs : List (PathGeo Coord × ConversionSubset × Bool))
    (compact : Bool) : GroupedH3Indexes PathCell :=
  aggregate pathParent pathChildren
    (jobs.map (fun j =>
      if j.2.2 then convert_subset_by_filtering_and_region_growing (pathCtx j.1) j.2.1 compact
      else convert_subset_by_checking_index_positions (pathCtx j.1) j.2.1 compact))
    compact

/-- Modelled from the spec: the error kinds of the h3-raster crate
(error.rs is not under src/); section 7 of the spec lists them.  The
names follow the variants the source file references
(`Error::BandOutOfRange`, `Error::H3ResolutionOutOfRange`,
`Error::NoGeotransformFound`, `Error::GeotransformFailed`,
`Error::InvalidSRS`, `Error::ConversionFailed`) plus the spec's
`RasterReadError`. -/
inductive Error : Type
  | bandOutOfRange
  | invalidSRS
  | h3ResolutionOutOfRange
  | noGeotransformFound
  | geotransformFailed
  | rasterReadError
  | conversionFailed
deriving DecidableEq

/-- Source rasterconverter.rs lines 118-211, error path of
`convert_tiles`: the reader loop (lines 191-200) extracts each tile's
band data and `.unwrap()`s the result (line 192), so a raster-read
failure panics the reader closure; the crossbeam scope catches the
panic after the spawned workers drain and join, and the `map_err` at
lines 207-210 turns every scope error into `Error::ConversionFailed`.
The reader is modelled sequentially: tiles are read in order, a
successful run returns the extracted band data, and the first failing
read aborts the run with `ConversionFailed`. -/
def convert_tiles_error_model (readTile : Tile → Except ε (List (List (Option Value)))) :
    List Tile → Except Error (List (List (List (Option Value))))
  | [] => Except.ok []
  | t :: rest =>
    match readTile t with
    | Except.error _ => Except.error Error.conversionFailed
    | Except.ok bd =>
      match convert_tiles_error_model readTile rest with
      | Except.error e => Except.error e
      | Except.ok bds => Except.ok (bd :: bds)

/-- Fuel bounds computed from a strictly decreasing measure are exact: any
fuel at least the measure of the state yields the same result. -/
theorem loopF_congr (step : σ → Option σ) (out : σ → ρ) (μ : σ → ℕ)
    (hdec : ∀ s s', step s = some s' → μ s' < μ s) :
    ∀ (n m : ℕ) (s : σ), μ s ≤ n → μ s ≤ m →
      loopF step out n s = loopF step out m s := by
  intro n
  induction n with
  | zero =>
    intro m s hn _
    cases m with
    | zero => rfl
    | succ m =>
      simp only [loopF]
      cases hstep : step s with
      | none => rfl
      | some s' => exact absurd (hdec s s' hstep) (by omega)
  | succ n ih =>
    intro m s hn hm
    cases m with
    | zero =>
      simp only [loopF]
      cases hstep : step s with
      | none => rfl
      | some s' => exact absurd (hdec s s' hstep) (by omega)
    | succ m =>
      simp only [loopF]
      cases hstep : step s with
      | none => rfl
      | some s' =>
        have h' := hdec s s' hstep
        exact ih m s' (by omega) (by omega)

/-- Invariants of the step function are carried to the loop's output. -/
theorem loopF_inv (step : σ → Option σ) (out : σ → ρ)
    (P : σ → Prop) (Q : ρ → Prop)
    (hstep : ∀ s s', P s → step s = some s' → P s')
    (hout : ∀ s, P s → Q (out s)) :
    ∀ (f : ℕ) (s : σ), P s → Q (loopF step out f s) := by
  intro f
  induction f with
  | zero => intro s hs; exact hout s hs
  | succ n ih =>
    intro s hs
    simp only [loopF]
    cases hstep' : step s with
    | none => exact hout s hs
    | some s' => exact ih s' (hstep s s' hs hstep')

/-- Claim C3: `grow_region_starting_with_index` is claimed to return
exactly the 8-connected component of the seed among the occupied
positions.  This fails: in a 3x3 tile with occupied positions
{2 = (col 2, row 0), 3 = (col 0, row 1)}, growing from seed 2 returns
{2, 3} although the 8-connected component of 2 is just {2} - the
right-edge guard of the neighbor loop compares the column against
`tile_size.1` (the height) instead of `width - 1`, so the neighbor key
`0*3 + (2+1) = 3` wraps around to the first pixel of the next row and the
unrelated position 3 is absorbed into the cluster. -/
theorem grow_region_not_connected_component :
    grow_region_starting_with_index [((2 : ℕ), (0 : ℕ)), (3, 0)] 2 (3, 3) = ({2, 3} : Finset ℕ) ∧
    specConnectedComponent8 (keysOfMap [((2 : ℕ), (0 : ℕ)), (3, 0)]) 2 (3, 3) = ({2} : Finset ℕ) := by
  decide

/-- Claim C4: the edge guards of `grow_region_starting_with_index` are
claimed to keep every visited neighbor inside the tile, so that an
enqueued neighbor key never aliases a pixel on a different row.  This
fails: in a 3x3 tile, position 5 = (col 2, row 1) lies on the right edge
(column = width - 1), yet the neighbor enumeration emits key
6 = (1+0)*3 + (2+1), which is the pixel (col 0, row 2) on a different
row; with occupied positions {5, 6} the grower therefore absorbs 6 into
the cluster of 5 although the two are not 8-adjacent. -/
theorem grow_region_neighbor_key_aliases_next_row :
    (6 ∈ growNeighborKeys (array_position_to_pixel 5 (3, 3)) (3, 3)) ∧
    (pixelColRow 6 (3, 3)).2 ≠ (pixelColRow 5 (3, 3)).2 ∧
    adjacent8 5 6 (3, 3) = false ∧
    grow_region_starting_with_index [((5 : ℕ), (0 : ℕ)), (6, 0)] 5 (3, 3) = ({5, 6} : Finset ℕ) := by
  decide

/-- Claim C9 as stated is false: `array_position_to_pixel` returns a
(row, column) pair while `pixel_to_array_position` consumes a
(column, row) pair, so composing them is not the identity on in-range
pixels: the pixel (column 0, row 1) in a 2x2 tile round-trips to (1, 0). -/
theorem pixel_array_roundtrip_not_identity :
    array_position_to_pixel (pixel_to_array_position (0, 1) (2, 2)) (2, 2) ≠ (0, 1) := by
  decide

/-- Claim C9, amended: `pixel_to_array_position` maps the (column, row)
pixel to `row*width + column`, and `array_position_to_pixel` is its
inverse up to swapping the pair components: position-to-pixel-to-position
is the identity after a swap, and pixel-to-position-to-pixel returns the
(row, column) transpose of an in-range (column, row) pixel. -/
theorem pixel_array_roundtrip_up_to_swap (w h c r : ℕ) (hc : c < w) :
    pixel_to_array_position (c, r) (w, h) = r * w + c ∧
    array_position_to_pixel (pixel_to_array_position (c, r) (w, h)) (w, h) = (r, c) ∧
    (∀ pos : ℕ, pixel_to_array_position
      ((array_position_to_pixel pos (w, h)).2, (array_position_to_pixel pos (w, h)).1)
      (w, h) = pos) := by
  have hw : 0 < w := Nat.lt_of_le_of_lt (Nat.zero_le c) hc
  refine ⟨rfl, ?_, ?_⟩
  · simp only [pixel_to_array_position, array_position_to_pixel, Prod.mk.injEq]
    constructor
    · rw [Nat.mul_comm r w, Nat.mul_add_div hw, Nat.div_eq_of_lt hc, Nat.add_zero]
    · rw [Nat.mul_comm r w, Nat.mul_add_mod, Nat.mod_eq_of_lt hc]
  · intro pos
    simp only [pixel_to_array_position, array_position_to_pixel]
    rw [Nat.mul_comm (pos / w) w, Nat.div_add_mod]

/-- Witness for `pixel_array_roundtrip_up_to_swap` at the concrete
in-range pixel (column 0, row 1) of a 2x2 tile. -/
theorem pixel_array_roundtrip_up_to_swap_witness :
    (0 : ℕ) < 2 ∧
    array_position_to_pixel (pixel_to_array_position (0, 1) (2, 2)) (2, 2) = (1, 0) :=
  ⟨by decide, (pixel_array_roundtrip_up_to_swap 2 2 0 1 (by decide)).2.1⟩

/-- Claim C5 as stated is false: with `H = 3` hexes and `P = 2` pixels the
exact product `0.9 * H = 2.7` strictly exceeds `P`, so the claim demands
cluster mode, but the source truncates the product to `2` before
comparing and therefore runs sweep mode. -/
theorem heuristic_not_exact_comparison :
    selects_cluster_mode 3 2 = false ∧ ((9 * 3 : ℚ) / 10 > (2 : ℚ)) := by
  refine ⟨by decide, by norm_num⟩

/-- Claim C5, amended: the worker runs cluster mode iff the truncation
(floor) of `0.9 * H` to an integer strictly exceeds `P`; in particular on
exact equality of `0.9 * H` with `P` (and whenever `0.9 * H < P + 1`) it
runs sweep mode. -/
theorem heuristic_selects_cluster_iff_floor (H P : ℕ) :
    selects_cluster_mode H P = true ↔ P < Nat.floor ((9 * H : ℚ) / 10) := by
  have h1 : (9 * H : ℚ) = ((9 * H : ℕ) : ℚ) := by push_cast; ring
  have h2 : (10 : ℚ) = ((10 : ℕ) : ℚ) := by norm_num
  have h3 : Nat.floor ((9 * H : ℚ) / 10) = 9 * H / 10 := by
    rw [h1, h2, Nat.floor_div_nat, Nat.floor_natCast]
  rw [h3, selects_cluster_mode]
  simp [Nat.mul_comm]

/-- Membership reading of `elemBy`. -/
theorem elemBy_eq_true [DecidableEq γ] {x : γ} {l : List γ} :
    elemBy x l = true ↔ x ∈ l := by
  simp [elemBy]

/-- Membership in the result of a `setEntryA` update: an element is an
untouched old entry, or carries the updated key with a value obtained by
applying `f` to the default or to an old value stored under that key. -/
theorem mem_setEntryA {m : List (Attributes × β)} {attrs : Attributes}
    {dflt : β} {f : β → β} {e' : Attributes × β} (h : e' ∈ setEntryA m attrs dflt f) :
    e' ∈ m ∨ (e'.1 = attrs ∧ (e'.2 = f dflt ∨ ∃ v, (attrs, v) ∈ m ∧ e'.2 = f v)) := by
  unfold setEntryA at h
  split at h
  · rcases List.mem_map.mp h with ⟨e, he, hmap⟩
    by_cases hk : e.1 = attrs
    · right
      rw [if_pos hk] at hmap
      refine ⟨by rw [← hmap]; exact hk, Or.inr ⟨e.2, ?_, by rw [← hmap]⟩⟩
      rw [← hk]
      exact he
    · left
      rw [if_neg hk] at hmap
      rw [← hmap]
      exact he
  · rcases List.mem_append.mp h with h | h
    · exact Or.inl h
    · right
      rcases List.mem_singleton.mp h with rfl
      exact ⟨rfl, Or.inl rfl⟩

/-- Membership characterization of `emittedPairs`. -/
theorem mem_emittedPairs {ita : List (Attributes × List ι)} {p : Attributes × ι} :
    p ∈ emittedPairs ita ↔ ∃ e ∈ ita, e.1 = p.1 ∧ p.2 ∈ e.2 := by
  unfold emittedPairs
  rw [List.mem_flatMap]
  constructor
  · rintro ⟨e, he, hp⟩
    rcases List.mem_map.mp hp with ⟨c, hc, rfl⟩
    exact ⟨e, he, rfl, hc⟩
  · rintro ⟨e, he, h1, h2⟩
    exact ⟨e, he, List.mem_map.mpr ⟨p.2, h2, by rw [h1]⟩⟩

/-- A value retrieved by `getEntryA` with empty default comes from a pair
stored under that key. -/
theorem mem_of_mem_getEntryA {m : List (Attributes × List γ)} {attrs : Attributes}
    {x : γ} (h : x ∈ getEntryA m attrs []) : (attrs, x) ∈ emittedPairs m := by
  unfold getEntryA at h
  cases hf : m.find? (fun e => decide (e.1 = attrs)) with
  | none =>
    rw [hf] at h
    exact absurd h (List.not_mem_nil x)
  | some e =>
    rw [hf] at h
    have hx : x ∈ e.2 := h
    have he : e ∈ m := List.mem_of_find?_eq_some hf
    have hk0 := List.find?_some hf
    have hk : e.1 = attrs := of_decide_eq_true hk0
    exact mem_emittedPairs.mpr ⟨e, he, by rw [hk], hx⟩

/-- Pairs after pushing one cell into a bucket map: an old pair or the
pushed pair. -/
theorem mem_emittedPairs_push {ita : List (Attributes × List ι)} {attrs : Attributes}
    {c : ι} {p : Attributes × ι}
    (h : p ∈ emittedPairs (setEntryA ita attrs [] (fun v => v ++ [c]))) :
    p ∈ emittedPairs ita ∨ p = (attrs, c) := by
  rcases mem_emittedPairs.mp h with ⟨e', he', hk, hc⟩
  rcases mem_setEntryA he' with hold | ⟨hkey, hval⟩
  · exact Or.inl (mem_emittedPairs.mpr ⟨e', hold, hk, hc⟩)
  · rcases hval with hval | ⟨v, hv, hval⟩
    · rw [hval] at hc
      simp only [List.nil_append, List.mem_singleton] at hc
      right
      exact Prod.ext_iff.mpr ⟨by rw [← hk, hkey], hc⟩
    · rw [hval] at hc
      rcases List.mem_append.mp hc with hc | hc
      · exact Or.inl (mem_emittedPairs.mpr ⟨(attrs, v), hv, by rw [← hk, hkey], hc⟩)
      · right
        rcases List.mem_singleton.mp hc with rfl
        exact Prod.ext_iff.mpr ⟨by rw [← hk, hkey], rfl⟩

/-- Every entry produced by `buildAttributesByPos` stores the zipped and
filtered band values of its position, with one value per band and at
least one present value. -/
theorem build_entry_spec {banddata : List (List (Option Value))} {e : ℕ × Attributes}
    (h : e ∈ buildAttributesByPos banddata) :
    e.2 = banddata.filterMap (fun bd => bd.get? e.1) ∧
      e.2.length = banddata.length ∧ e.2.any (fun v => v.isSome) = true := by
  simp only [buildAttributesByPos] at h
  rcases List.mem_filterMap.mp h with ⟨idx, _, hidx⟩
  split at hidx
  · rename_i hcond
    injection hidx with hidx
    subst hidx
    exact ⟨rfl, hcond.1, hcond.2⟩
  · exact absurd hidx (by simp)

/-- When the per-position filterMap keeps one value per band, it agrees
with `readAttributes`. -/
theorem filterMap_get_eq_readAttributes {banddata : List (List (Option Value))} {pos : ℕ}
    (h : (banddata.filterMap (fun bd => bd.get? pos)).length = banddata.length) :
    banddata.filterMap (fun bd => bd.get? pos) = readAttributes banddata pos := by
  induction banddata with
  | nil => rfl
  | cons b bd ih =>
    cases hb : b.get? pos with
    | some v =>
      have h' : (List.filterMap (fun bd => bd.get? pos) bd).length = bd.length := by
        simp only [List.filterMap_cons, hb, List.length_cons] at h
        omega
      simp only [readAttributes, List.filterMap_cons, List.map_cons, hb] at ih ⊢
      rw [ih h']
    | none =>
      simp only [List.filterMap_cons, hb, List.length_cons] at h
      have := List.length_filterMap_le (fun bd => bd.get? pos) bd
      omega

/-- Entries of the positional attribute map are faithful to the band
data: the stored vector is the attribute vector read at the position. -/
theorem build_entry_faithful {banddata : List (List (Option Value))} {e : ℕ × Attributes}
    (h : e ∈ buildAttributesByPos banddata) :
    readAttributes banddata e.1 = e.2 := by
  rcases build_entry_spec h with ⟨hv, hl, _⟩
  rw [hv, ← filterMap_get_eq_readAttributes (by rw [← hv, hl])]

/-- A successful `lookupMap` exposes a stored entry. -/
theorem lookupMap_some {m : List (ℕ × α)} {k : ℕ} {a : α}
    (h : lookupMap m k = some a) : (k, a) ∈ m := by
  unfold lookupMap at h
  cases hf : m.find? (fun e => decide (e.1 = k)) with
  | none => rw [hf] at h; simp at h
  | some e =>
    rw [hf] at h
    have h2 : e.2 = a := Option.some.inj h
    have he : e ∈ m := List.mem_of_find?_eq_some hf
    have hk0 := List.find?_some hf
    have hk : e.1 = k := of_decide_eq_true hk0
    rw [← h2, ← hk]
    exact he

/-- One step of the cluster-mode hex flood fill preserves the
`indexes_to_add` invariant, provided the live positional map only holds
entries of the initial one. -/
theorem clusterBFSStep_preserves_goodIta [DecidableEq ι] {ctx : Ctx ι Coord}
    {subset : ConversionSubset} {m : List (ℕ × Attributes)} {cluster : Finset ℕ}
    (hm : ∀ me ∈ m, me ∈ buildAttributesByPos subset.banddata) :
    ∀ s s', clusterBFSStep ctx subset m cluster s = some s' →
      goodIta ctx subset s.ita → goodIta ctx subset s'.ita := by
  intro s s' hstep hita
  unfold clusterBFSStep at hstep
  rcases s with ⟨queue, visited, scheduled, ita⟩
  match queue, hstep with
  | this :: rest, hstep =>
    dsimp only at hstep
    split at hstep
    · injection hstep with hstep
      subst hstep
      exact hita
    · split at hstep
      · injection hstep with hstep
        subst hstep
        exact hita
      · split at hstep
        · rename_i attributes hlook
          injection hstep with hstep
          subst hstep
          dsimp only [goodIta]
          intro e' he'
          rcases mem_setEntryA he' with hold | ⟨hkey, hval⟩
          · exact hita e' hold
          · have hme : (cellArrayPos ctx subset this, attributes) ∈
                buildAttributesByPos subset.banddata := hm _ (lookupMap_some hlook)
            rcases hval with hval | ⟨v, hv, hval⟩
            · refine ⟨by rw [hval]; simp, ?_⟩
              intro c hc
              rw [hval] at hc
              simp only [List.nil_append, List.mem_singleton] at hc
              subst hc
              exact ⟨_, hme, rfl, by rw [hkey]⟩
            · have hvgood := hita (attributes, v) hv
              refine ⟨by rw [hval]; simp, ?_⟩
              intro c hc
              rw [hval] at hc
              rcases List.mem_append.mp hc with hc | hc
              · rcases hvgood.2 c hc with ⟨me, hmem, h1, h2⟩
                exact ⟨me, hmem, h1, by rw [h2, hkey]⟩
              · rcases List.mem_singleton.mp hc with rfl
                exact ⟨_, hme, rfl, by rw [hkey]⟩
        · injection hstep with hstep
          subst hstep
          exact hita

/-- The cluster-mode hex flood fill preserves the `indexes_to_add`
invariant. -/
theorem cluster_hex_grow_goodIta [DecidableEq ι] {ctx : Ctx ι Coord}
    {subset : ConversionSubset} {m : List (ℕ × Attributes)} {cluster : Finset ℕ}
    {entry : ι} {ita : List (Attributes × List ι)}
    (hm : ∀ me ∈ m, me ∈ buildAttributesByPos subset.banddata)
    (hita : goodIta ctx subset ita) :
    goodIta ctx subset (cluster_hex_grow ctx subset m cluster entry ita) := by
  unfold cluster_hex_grow
  exact loopF_inv _ _ (fun s => goodIta ctx subset s.ita) (goodIta ctx subset)
    (fun s s' hs hstep => clusterBFSStep_preserves_goodIta hm s s' hstep hs)
    (fun s hs => hs) (1 + 2 * ctx.bound)
    { queue := [entry], visited := ∅, scheduled := {entry}, ita := ita } hita

/-- The per-cluster work preserves the `indexes_to_add` invariant. -/
theorem clusterProcessOne_goodIta [DecidableEq ι] {ctx : Ctx ι Coord}
    {subset : ConversionSubset} {m : List (ℕ × Attributes)} {cluster : Finset ℕ}
    {ita : List (Attributes × List ι)}
    (hm : ∀ me ∈ m, me ∈ buildAttributesByPos subset.banddata)
    (hita : goodIta ctx subset ita) :
    goodIta ctx subset (clusterProcessOne ctx subset m cluster ita) := by
  unfold clusterProcessOne
  cases hfind : find_first_index_in_cluster ctx subset
      ((m.map Prod.fst).filter (fun p => decide (p ∈ cluster))) cluster with
  | some entry => exact cluster_hex_grow_goodIta hm hita
  | none => exact hita

/-- One iteration of the outer cluster loop preserves both the
sub-map relation to the initial positional map and the `indexes_to_add`
invariant. -/
theorem clusterOuterStep_preserves [DecidableEq ι] {ctx : Ctx ι Coord}
    {subset : ConversionSubset} :
    ∀ ms ita ms' ita',
      clusterOuterStep ctx subset (ms, ita) = some (ms', ita') →
      ((∀ me ∈ ms, me ∈ buildAttributesByPos subset.banddata) ∧ goodIta ctx subset ita) →
      ((∀ me ∈ ms', me ∈ buildAttributesByPos subset.banddata) ∧ goodIta ctx subset ita') := by
  intro ms ita ms' ita' hstep hs
  rcases hs with ⟨hm, hita⟩
  cases ms with
  | nil => exact absurd hstep (by simp [clusterOuterStep])
  | cons head restMap =>
    rcases head with ⟨array_pos, attrs₀⟩
    simp only [clusterOuterStep] at hstep
    injection hstep with hstep
    injection hstep with h1 h2
    subst h1
    subst h2
    refine ⟨?_, clusterProcessOne_goodIta hm hita⟩
    intro me hme
    exact hm me (List.mem_of_mem_filter hme)

/-- The `indexes_to_add` map produced by the cluster-mode collection
phase satisfies its invariant: every recorded (attributes, cell) pair is
witnessed by an entry of the initial positional map at the cell's center
pixel. -/
theorem cluster_collect_good [DecidableEq ι] (ctx : Ctx ι Coord)
    (subset : ConversionSubset) :
    goodIta ctx subset (cluster_collect ctx subset) := by
  unfold cluster_collect
  refine loopF_inv _ _
    (fun s : List (ℕ × Attributes) × List (Attributes × List ι) =>
      (∀ me ∈ s.1, me ∈ buildAttributesByPos subset.banddata) ∧ goodIta ctx subset s.2)
    (goodIta ctx subset) ?_ (fun s h => h.2) _ _
    ⟨fun me h => h, fun e he => absurd he (List.not_mem_nil e)⟩
  intro s s' h1 h2
  rcases s with ⟨ms, ita⟩
  rcases s' with ⟨ms', ita'⟩
  exact clusterOuterStep_preserves ms ita ms' ita' h2 h1

/-- Membership characterization of `groupedPairsAt`. -/
theorem mem_groupedPairsAt {g : GroupedH3Indexes ι} {res : ℕ} {p : Attributes × ι} :
    p ∈ groupedPairsAt g res ↔ ∃ e ∈ g, e.1 = p.1 ∧ p.2 ∈ stackCellsAt e.2 res := by
  unfold groupedPairsAt
  rw [List.mem_flatMap]
  constructor
  · rintro ⟨e, he, hp⟩
    rcases List.mem_map.mp hp with ⟨c, hc, rfl⟩
    exact ⟨e, he, rfl, hc⟩
  · rintro ⟨e, he, h1, h2⟩
    exact ⟨e, he, List.mem_map.mpr ⟨p.2, h2, by rw [h1]⟩⟩

/-- Cells of a stack after prepending a resolution group. -/
theorem stackCellsAt_cons {r : ℕ} {cells : List ι} {st : H3IndexStack ι} {res : ℕ} :
    stackCellsAt ((r, cells) :: st) res =
      (if r = res then cells else []) ++ stackCellsAt st res := by
  simp [stackCellsAt]

/-- Pairs after an uncompacted append of a cell list into one grouped
entry: an old pair, or a pair of the appended list under the appended
key. -/
theorem mem_groupedPairsAt_append [DecidableEq ι] {ctx : Ctx ι Coord}
    {g : GroupedH3Indexes ι} {attrs : Attributes} {cells : List ι} {res : ℕ}
    {p : Attributes × ι}
    (h : p ∈ groupedPairsAt
      (modifyEntry g attrs (fun st => append_to_resolution ctx st res cells false)) res) :
    p ∈ groupedPairsAt g res ∨ (p.1 = attrs ∧ p.2 ∈ cells) := by
  have happ : ∀ st : H3IndexStack ι,
      append_to_resolution ctx st res cells false = (res, cells) :: st := by
    intro st
    simp [append_to_resolution]
  rcases mem_groupedPairsAt.mp h with ⟨e', he', hk, hc⟩
  rcases mem_setEntryA he' with hold | ⟨hkey, hval⟩
  · exact Or.inl (mem_groupedPairsAt.mpr ⟨e', hold, hk, hc⟩)
  · rcases hval with hval | ⟨v, hv, hval⟩
    · rw [happ] at hval
      rw [hval, stackCellsAt_cons, if_pos rfl] at hc
      rcases List.mem_append.mp hc with hc | hc
      · exact Or.inr ⟨by rw [← hk, hkey], hc⟩
      · rw [stackCellsAt] at hc
        simp at hc
    · rw [happ] at hval
      rw [hval, stackCellsAt_cons, if_pos rfl] at hc
      rcases List.mem_append.mp hc with hc | hc
      · exact Or.inr ⟨by rw [← hk, hkey], hc⟩
      · exact Or.inl (mem_groupedPairsAt.mpr ⟨(attrs, v), hv, by rw [← hk, hkey], hc⟩)

/-- One step of the sweep loop (uncompacted run) preserves the per-pair
invariant on buckets and grouped stacks. -/
theorem sweepStep_preserves_goodSweep [DecidableEq ι] {ctx : Ctx ι Coord}
    {subset : ConversionSubset} :
    ∀ s s', sweepStep ctx subset false s = some s' →
      goodSweep ctx subset s → goodSweep ctx subset s' := by
  intro s s' hstep hs
  rcases hs with ⟨hbuckets, hgrouped⟩
  unfold sweepStep at hstep
  rcases s with ⟨queue, visited, scheduled, buckets, grouped⟩
  match queue, hstep with
  | this :: rest, hstep =>
    dsimp only at hstep
    split at hstep
    · injection hstep with hstep
      subst hstep
      exact ⟨hbuckets, hgrouped⟩
    · split at hstep
      · rename_i hpres
        split at hstep
        · rename_i hflush
          injection hstep with hstep
          subst hstep
          dsimp only [goodSweep]
          constructor
          · intro p hp
            rcases mem_emittedPairs.mp hp with ⟨e', he', hk, hc⟩
            rcases mem_setEntryA he' with hold | ⟨hkey, hval⟩
            · exact hbuckets p (mem_emittedPairs.mpr ⟨e', hold, hk, hc⟩)
            · have hnil : e'.2 = ([] : List ι) := by
                rcases hval with hval | ⟨v, hv, hval⟩ <;> exact hval
              rw [hnil] at hc
              exact absurd hc (List.not_mem_nil p.2)
          · intro p hp
            rcases mem_groupedPairsAt_append hp with hold | ⟨hkey, hcell⟩
            · exact hgrouped p hold
            · rcases List.mem_append.mp hcell with hcell | hcell
              · have := hbuckets (p.1, p.2) (by
                  rw [hkey]
                  exact mem_of_mem_getEntryA hcell)
                exact this
              · rcases List.mem_singleton.mp hcell with hcell
                unfold sweepPairProp
                rw [hcell, hkey]
        · injection hstep with hstep
          subst hstep
          dsimp only [goodSweep]
          constructor
          · intro p hp
            rcases mem_emittedPairs.mp hp with ⟨e', he', hk, hc⟩
            rcases mem_setEntryA he' with hold | ⟨hkey, hval⟩
            · exact hbuckets p (mem_emittedPairs.mpr ⟨e', hold, hk, hc⟩)
            · have htv : e'.2 = getEntryA buckets
                  (readAttributes subset.banddata (cellArrayPos ctx subset this)) []
                    ++ [this] := by
                rcases hval with hval | ⟨v, hv, hval⟩ <;> exact hval
              rw [htv] at hc
              rcases List.mem_append.mp hc with hc | hc
              · have hb2 := hbuckets (p.1, p.2) (by
                  rw [hkey] at hk
                  rw [← hk]
                  exact mem_of_mem_getEntryA hc)
                exact hb2
              · rcases List.mem_singleton.mp hc with hc
                unfold sweepPairProp
                rw [hc, ← hk, hkey]
          · exact hgrouped
      · injection hstep with hstep
        subst hstep
        exact ⟨hbuckets, hgrouped⟩

/-- Draining bucket entries into the grouped result preserves the
per-pair invariant. -/
theorem drain_preserves_good [DecidableEq ι] {ctx : Ctx ι Coord}
    {subset : ConversionSubset} :
    ∀ (bkts : List (Attributes × List ι)) (g : GroupedH3Indexes ι),
      (∀ p ∈ emittedPairs bkts, sweepPairProp ctx subset p) →
      (∀ p ∈ groupedPairsAt g subset.h3_resolution, sweepPairProp ctx subset p) →
      ∀ p ∈ groupedPairsAt
        (bkts.foldl (fun g2 e => modifyEntry g2 e.1
          (fun st => append_to_resolution ctx st subset.h3_resolution e.2 false)) g)
        subset.h3_resolution, sweepPairProp ctx subset p := by
  intro bkts
  induction bkts with
  | nil => exact fun g _ hg => hg
  | cons e bkts ih =>
    intro g hb hg
    rw [List.foldl_cons]
    refine ih _ (fun p hp => hb p ?_) ?_
    · unfold emittedPairs at hp ⊢
      rw [List.flatMap_cons]
      exact List.mem_append_right _ hp
    · intro p hp
      rcases mem_groupedPairsAt_append hp with hold | ⟨hkey, hcell⟩
      · exact hg p hold
      · refine hb p ?_
        unfold emittedPairs
        rw [List.flatMap_cons]
        refine List.mem_append_left _ (List.mem_map.mpr ⟨p.2, hcell, ?_⟩)
        rw [← hkey]

/-- Every pair sweep mode emits carries the attribute vector read at its
cell's center pixel. -/
theorem sweep_emitted_prop [DecidableEq ι] (ctx : Ctx ι Coord)
    (subset : ConversionSubset) :
    ∀ p ∈ sweep_emitted ctx subset, sweepPairProp ctx subset p := by
  unfold sweep_emitted convert_subset_by_checking_index_positions
  refine loopF_inv _ _ (goodSweep ctx subset)
    (fun g => ∀ p ∈ groupedPairsAt g subset.h3_resolution, sweepPairProp ctx subset p)
    (fun s s' hP hstep => sweepStep_preserves_goodSweep s s' hstep hP) ?_ _ _
    ⟨fun p hp => absurd hp (List.not_mem_nil p), fun p hp => absurd hp (List.not_mem_nil p)⟩
  intro s hs
  exact drain_preserves_good s.buckets s.grouped hs.1 hs.2

/-- Claim C1: for every context and subset, every (attributes, cell)
pair emitted by either conversion mode is such that the attribute vector
read at the array position of the cell's center coordinate (mapped
through the geotransform inverse) equals the pair's attributes. -/
theorem emitted_attributes_match_center_pixel [DecidableEq ι]
    (ctx : Ctx ι Coord) (subset : ConversionSubset) (attrs : Attributes) (cell : ι) :
    ((attrs, cell) ∈ cluster_emitted ctx subset →
      readAttributes subset.banddata (cellArrayPos ctx subset cell) = attrs) ∧
    ((attrs, cell) ∈ sweep_emitted ctx subset →
      readAttributes subset.banddata (cellArrayPos ctx subset cell) = attrs) := by
  constructor
  · intro h
    rcases mem_emittedPairs.mp h with ⟨e, he, hk, hc⟩
    rcases (cluster_collect_good ctx subset e he).2 cell hc with ⟨me, hmem, h1, h2⟩
    have hf := build_entry_faithful hmem
    rw [h1] at hf
    rw [hf, h2, hk]
  · intro h
    exact sweep_emitted_prop ctx subset (attrs, cell) h

/-- Witness for claim C1 at the concrete instance: the single pair both
modes emit satisfies the center-pixel attribute property. -/
theorem emitted_attributes_match_center_pixel_witness :
    (([some (Value.uint8 5)], (0 : Fin 4)) ∈ cluster_emitted witnessCtx witnessSubset) ∧
    readAttributes witnessSubset.banddata
      (cellArrayPos witnessCtx witnessSubset 0) = [some (Value.uint8 5)] :=
  ⟨by decide,
    (emitted_attributes_match_center_pixel witnessCtx witnessSubset
      [some (Value.uint8 5)] 0).1 (by decide)⟩

/-- Keys present after folding bucket entries into a grouped result come
from the initial result or from the folded entries. -/
theorem mem_keys_after_drain {F : Attributes × List ι → H3IndexStack ι → H3IndexStack ι} :
    ∀ (bkts : List (Attributes × List ι)) (g : GroupedH3Indexes ι) (k : Attributes),
      k ∈ (bkts.foldl (fun g2 e => modifyEntry g2 e.1 (F e)) g).map Prod.fst →
      k ∈ g.map Prod.fst ∨ ∃ e ∈ bkts, e.1 = k := by
  intro bkts
  induction bkts with
  | nil => exact fun g k h => Or.inl h
  | cons e bkts ih =>
    intro g k h
    rw [List.foldl_cons] at h
    rcases ih _ k h with h2 | ⟨e', he', hk⟩
    · rcases List.mem_map.mp h2 with ⟨e'', he'', hk⟩
      rcases mem_setEntryA he'' with hold | ⟨hkey, _⟩
      · exact Or.inl (List.mem_map.mpr ⟨e'', hold, hk⟩)
      · exact Or.inr ⟨e, List.mem_cons_self e bkts, by rw [← hkey, hk]⟩
    · exact Or.inr ⟨e', List.mem_cons_of_mem e he', hk⟩

/-- One sweep step preserves key presence: buckets and grouped entries
are only created under attribute vectors that passed the presence
guard. -/
theorem sweepStep_preserves_keysPresent [DecidableEq ι] {ctx : Ctx ι Coord}
    {subset : ConversionSubset} {compact : Bool} :
    ∀ s s', sweepStep ctx subset compact s = some s' →
      sweepKeysPresent s → sweepKeysPresent s' := by
  intro s s' hstep hs
  rcases hs with ⟨hb, hg⟩
  unfold sweepStep at hstep
  rcases s with ⟨queue, visited, scheduled, buckets, grouped⟩
  match queue, hstep with
  | this :: rest, hstep =>
    dsimp only at hstep
    split at hstep
    · injection hstep with hstep
      subst hstep
      exact ⟨hb, hg⟩
    · split at hstep
      · rename_i hpres
        split at hstep
        · injection hstep with hstep
          subst hstep
          dsimp only [sweepKeysPresent]
          constructor
          · intro k hk
            rcases List.mem_map.mp hk with ⟨e'', he'', hkk⟩
            rcases mem_setEntryA he'' with hold | ⟨hkey, _⟩
            · exact hb k (List.mem_map.mpr ⟨e'', hold, hkk⟩)
            · rw [← hkk, hkey]
              exact hpres
          · intro k hk
            rcases List.mem_map.mp hk with ⟨e'', he'', hkk⟩
            rcases mem_setEntryA he'' with hold | ⟨hkey, _⟩
            · exact hg k (List.mem_map.mpr ⟨e'', hold, hkk⟩)
            · rw [← hkk, hkey]
              exact hpres
        · injection hstep with hstep
          subst hstep
          dsimp only [sweepKeysPresent]
          constructor
          · intro k hk
            rcases List.mem_map.mp hk with ⟨e'', he'', hkk⟩
            rcases mem_setEntryA he'' with hold | ⟨hkey, _⟩
            · exact hb k (List.mem_map.mpr ⟨e'', hold, hkk⟩)
            · rw [← hkk, hkey]
              exact hpres
          · exact hg
      · injection hstep with hstep
        subst hstep
        exact ⟨hb, hg⟩

/-- When every classified band value is no-data, every attribute vector
read from the band data fails the presence test. -/
theorem readAttributes_nodata {banddata : List (List (Option Value))}
    (h : ∀ bd ∈ banddata, ∀ v ∈ bd, v = none) (pos : ℕ) :
    (readAttributes banddata pos).any (fun a => a.isSome) = false := by
  rw [List.any_eq_false]
  intro a ha
  rcases List.mem_map.mp ha with ⟨bd, hbd, hval⟩
  cases hget : bd.get? pos with
  | some v =>
    rw [hget] at hval
    have hv : v = none := h bd hbd v (List.get?_mem hget)
    rw [← hval, hv]
    simp
  | none =>
    rw [hget] at hval
    rw [← hval]
    simp

/-- When every classified band value is no-data, the positional
attribute map of cluster mode is empty. -/
theorem build_nodata {banddata : List (List (Option Value))}
    (h : ∀ bd ∈ banddata, ∀ v ∈ bd, v = none) :
    buildAttributesByPos banddata = [] := by
  simp only [buildAttributesByPos]
  rw [List.filterMap_eq_nil_iff]
  intro idx _
  have hall : ∀ x ∈ banddata.filterMap (fun bd => bd.get? idx), x = none := by
    intro x hx
    rcases List.mem_filterMap.mp hx with ⟨bd, hbd, hget⟩
    exact h bd hbd x (List.get?_mem hget)
  rw [if_neg]
  rintro ⟨-, hany⟩
  rcases List.any_eq_true.mp hany with ⟨x, hx, hsome⟩
  rw [hall x hx] at hsome
  exact absurd hsome (by simp)

/-- Claim C2: for every context, subset and compact flag, every
attribute key of the grouped result of either conversion mode has at
least one value that is not no-data, and a subset whose classified
values are all no-data produces an empty grouped result in both
modes. -/
theorem no_all_nodata_emission [DecidableEq ι] (ctx : Ctx ι Coord)
    (subset : ConversionSubset) (compact : Bool) :
    (∀ attrs ∈ (convert_subset_by_filtering_and_region_growing ctx subset compact).map
        Prod.fst, attrs.any (fun a => a.isSome) = true) ∧
    (∀ attrs ∈ (convert_subset_by_checking_index_positions ctx subset compact).map
        Prod.fst, attrs.any (fun a => a.isSome) = true) ∧
    ((∀ bd ∈ subset.banddata, ∀ v ∈ bd, v = none) →
      convert_subset_by_filtering_and_region_growing ctx subset compact = [] ∧
      convert_subset_by_checking_index_positions ctx subset compact = []) := by
  refine ⟨?_, ?_, ?_⟩
  · intro attrs h
    unfold convert_subset_by_filtering_and_region_growing at h
    rcases mem_keys_after_drain (cluster_collect ctx subset) [] attrs h with h2 | ⟨e, he, hk⟩
    · exact absurd h2 (List.not_mem_nil attrs)
    · rcases cluster_collect_good ctx subset e he with ⟨hne, hwit⟩
      rcases List.exists_mem_of_ne_nil e.2 hne with ⟨c, hc⟩
      rcases hwit c hc with ⟨me, hmem, -, h2⟩
      rw [← hk, ← h2]
      exact (build_entry_spec hmem).2.2
  · have hmain : ∀ attrs ∈ (convert_subset_by_checking_index_positions ctx subset
        compact).map Prod.fst, attrs.any (fun a => a.isSome) = true := by
      unfold convert_subset_by_checking_index_positions
      refine loopF_inv _ _ sweepKeysPresent
        (fun g : GroupedH3Indexes ι =>
          ∀ attrs ∈ g.map Prod.fst, attrs.any (fun a => a.isSome) = true)
        (fun s s' hP hstep => sweepStep_preserves_keysPresent s s' hstep hP) ?_ _ _ ?_
      · intro s hs attrs h
        unfold sweepOut at h
        rcases mem_keys_after_drain s.buckets s.grouped attrs h with h2 | ⟨e, he, hk⟩
        · exact hs.2 attrs h2
        · rw [← hk]
          exact hs.1 e.1 (List.mem_map.mpr ⟨e, he, rfl⟩)
      · exact ⟨fun k hk => absurd hk (List.not_mem_nil k),
          fun k hk => absurd hk (List.not_mem_nil k)⟩
    exact hmain
  · intro h
    constructor
    · unfold convert_subset_by_filtering_and_region_growing cluster_collect
      rw [build_nodata h]
      rfl
    · unfold convert_subset_by_checking_index_positions
      have hout : ∀ s : SweepState ι, s.buckets = [] ∧ s.grouped = [] →
          sweepOut ctx subset compact s = [] := by
        rintro s ⟨h1, h2⟩
        unfold sweepOut
        rw [h1, h2]
        rfl
      refine loopF_inv _ _ (fun s : SweepState ι => s.buckets = [] ∧ s.grouped = [])
        (fun g => g = []) ?_ hout _ _ ⟨rfl, rfl⟩
      intro s s' hP hstep
      rcases hP with ⟨h1, h2⟩
      unfold sweepStep at hstep
      rcases s with ⟨queue, visited, scheduled, buckets, grouped⟩
      match queue, hstep with
      | this :: rest, hstep =>
        dsimp only at h1 h2
        subst h1
        subst h2
        dsimp only at hstep
        split at hstep
        · injection hstep with hstep
          subst hstep
          exact ⟨rfl, rfl⟩
        · split at hstep
          · rename_i hpres
            rw [readAttributes_nodata h] at hpres
            exact absurd hpres (by simp)
          · injection hstep with hstep
            subst hstep
            exact ⟨rfl, rfl⟩

/-- Witness for claim C2 at the concrete instances: the key emitted for
the one-pixel subset is present, and the all-no-data subset converts to
empty results. -/
theorem no_all_nodata_emission_witness :
    (([some (Value.uint8 5)] : Attributes) ∈
      (convert_subset_by_filtering_and_region_growing witnessCtx witnessSubset
        false).map Prod.fst) ∧
    ([some (Value.uint8 5)] : Attributes).any (fun a => a.isSome) = true ∧
    ((∀ bd ∈ witnessSubsetNoData.banddata, ∀ v ∈ bd, v = none) ∧
      convert_subset_by_filtering_and_region_growing witnessCtx witnessSubsetNoData
        false = [] ∧
      convert_subset_by_checking_index_positions witnessCtx witnessSubsetNoData
        false = []) :=
  ⟨by decide,
   (no_all_nodata_emission witnessCtx witnessSubset false).1 _ (by decide),
   by decide,
   (no_all_nodata_emission witnessCtx witnessSubsetNoData false).2.2 (by decide)⟩

/-- A filter that drops at least one element strictly shrinks a list. -/
theorem length_filter_lt {l : List α} {p : α → Bool} {x : α}
    (hx : x ∈ l) (hpx : p x = false) : (l.filter p).length < l.length := by
  induction l with
  | nil => exact absurd hx (List.not_mem_nil x)
  | cons a l ih =>
    rcases List.mem_cons.mp hx with rfl | hx2
    · rw [List.filter_cons, hpx]
      exact Nat.lt_succ_of_le (List.length_filter_le p l)
    · rw [List.filter_cons]
      cases hpa : p a
      · exact Nat.lt_succ_of_lt (ih hx2)
      · simpa using Nat.succ_lt_succ (ih hx2)

/-- The neighbor enumeration of the region grower yields at most nine
keys. -/
theorem growNeighborKeys_length_le (pos : ℕ × ℕ) (tile_size : ℕ × ℕ) :
    (growNeighborKeys pos tile_size).length ≤ 9 := by
  have h3 : ∀ (g : ℤ → List ℕ) (c : ℕ), (∀ i, (g i).length ≤ c) →
      (([-1, 0, 1] : List ℤ).flatMap g).length ≤ 3 * c := by
    intro g c hg
    have hexp : ([-1, 0, 1] : List ℤ).flatMap g = g (-1) ++ (g 0 ++ (g 1 ++ [])) := rfl
    rw [hexp]
    simp only [List.length_append, List.length_nil]
    have ha := hg (-1)
    have hb := hg 0
    have hc := hg 1
    omega
  unfold growNeighborKeys
  refine Nat.le_trans (h3 _ 3 ?_) (by omega)
  intro i
  split
  · simp
  · refine Nat.le_trans (h3 _ 1 ?_) (by omega)
    intro j
    split
    · simp
    · simp

/-- Each region-grower step strictly decreases the measure. -/
theorem growStep_decreases (keys : Finset ℕ) (tile_size : ℕ × ℕ) :
    ∀ s s', growStep keys tile_size s = some s' →
      growMeasure keys s' < growMeasure keys s := by
  intro s s' hstep
  rcases s with ⟨queue, cl⟩
  cases queue with
  | nil => exact absurd hstep (by simp [growStep])
  | cons next rest =>
    simp only [growStep] at hstep
    split at hstep
    · injection hstep with hstep
      subst hstep
      simp only [growMeasure, List.length_cons]
      omega
    · split at hstep
      · injection hstep with hstep
        subst hstep
        simp only [growMeasure, List.length_cons]
        omega
      · rename_i hkeys hcl
        rw [Decidable.not_not] at hkeys
        injection hstep with hstep
        subst hstep
        simp only [growMeasure, List.length_cons, List.length_append,
          List.length_reverse]
        have hpush : ((growNeighborKeys (array_position_to_pixel next tile_size)
            tile_size).filter (fun k => decide (k ∉ insert next cl))).length ≤ 9 :=
          Nat.le_trans (List.length_filter_le _ _)
            (growNeighborKeys_length_le _ _)
        have hsub : keys \ insert next cl ⊆ (keys \ cl).erase next := by
          intro x hx
          simp only [Finset.mem_sdiff, Finset.mem_insert, not_or] at hx
          simp only [Finset.mem_erase, Finset.mem_sdiff]
          exact ⟨hx.2.1, hx.1, hx.2.2⟩
        have hmem : next ∈ keys \ cl := Finset.mem_sdiff.mpr ⟨hkeys, hcl⟩
        have hlt : ((keys \ cl).erase next).card < (keys \ cl).card :=
          Finset.card_erase_lt_of_mem hmem
        have hle := Finset.card_le_card hsub
        omega

/-- The cluster only grows along a region-grower run. -/
theorem growStep_cluster_mono (keys : Finset ℕ) (tile_size : ℕ × ℕ) :
    ∀ s s', growStep keys tile_size s = some s' → s.2 ⊆ s'.2 := by
  intro s s' hstep
  rcases s with ⟨queue, cl⟩
  cases queue with
  | nil => exact absurd hstep (by simp [growStep])
  | cons next rest =>
    simp only [growStep] at hstep
    split at hstep
    · injection hstep with hstep
      subst hstep
      exact fun x hx => hx
    · split at hstep
      · injection hstep with hstep
        subst hstep
        exact fun x hx => hx
      · injection hstep with hstep
        subst hstep
        exact fun x hx => Finset.mem_insert_of_mem hx

/-- An occupied seed belongs to its grown cluster. -/
theorem seed_mem_grow_region {m : List (ℕ × α)} {seed : ℕ} {tile_size : ℕ × ℕ}
    (h : seed ∈ keysOfMap m) :
    seed ∈ grow_region_starting_with_index m seed tile_size := by
  unfold grow_region_starting_with_index
  have hstep : growStep (keysOfMap m) tile_size ([seed], ∅) =
      some (((growNeighborKeys (array_position_to_pixel seed tile_size)
        tile_size).filter (fun k => decide (k ∉ insert seed (∅ : Finset ℕ)))).reverse
          ++ [], insert seed ∅) := by
    simp only [growStep]
    rw [if_neg (not_not_intro h), if_neg (Finset.not_mem_empty seed)]
  rw [Nat.add_comm 1 (9 * (keysOfMap m).card)]
  simp only [loopF]
  rw [hstep]
  exact loopF_inv _ _ (fun s : List ℕ × Finset ℕ => seed ∈ s.2) (fun cl => seed ∈ cl)
    (fun s s' hP hst => growStep_cluster_mono (keysOfMap m) tile_size s s' hst hP)
    (fun s hP => hP) _ _ (Finset.mem_insert_self seed ∅)

/-- Each outer cluster-loop iteration strictly shrinks the positional
map: the grown cluster contains its occupied seed, which is retired. -/
theorem clusterOuterStep_decreases [DecidableEq ι] (ctx : Ctx ι Coord)
    (subset : ConversionSubset) :
    ∀ s s', clusterOuterStep ctx subset s = some s' → s'.1.length < s.1.length := by
  intro s s' hstep
  rcases s with ⟨ms, ita⟩
  cases ms with
  | nil => exact absurd hstep (by simp [clusterOuterStep])
  | cons head restMap =>
    rcases head with ⟨array_pos, attrs₀⟩
    simp only [clusterOuterStep] at hstep
    rcases s' with ⟨ms', ita'⟩
    injection hstep with hstep
    injection hstep with h1 h2
    subst h1
    have hseed : array_pos ∈ keysOfMap ((array_pos, attrs₀) :: restMap) := by
      simp [keysOfMap]
    have hmem := @seed_mem_grow_region Attributes ((array_pos, attrs₀) :: restMap)
      array_pos subset.tile.size hseed
    refine length_filter_lt (List.mem_cons_self _ _) ?_
    simp only [decide_eq_false_iff_not, Decidable.not_not]
    exact hmem

/-- Enqueueing neighbors does not increase the flood-fill measure: each
accepted neighbor lengthens the queue by one but newly schedules one
cell. -/
theorem enqueueNeighbors_measure [DecidableEq ι] {bound : ℕ}
    (hb : ∀ t : Finset ι, t.card ≤ bound) :
    ∀ (nbrs : List ι) (vis : Finset ι) (q : List ι) (sched : Finset ι),
      bfsMeasure bound (enqueueNeighbors nbrs vis q sched).1
          (enqueueNeighbors nbrs vis q sched).2 vis ≤
        bfsMeasure bound q sched vis := by
  intro nbrs
  induction nbrs with
  | nil => exact fun vis q sched => Nat.le_refl _
  | cons nb nbrs ih =>
    intro vis q sched
    unfold enqueueNeighbors
    rw [List.foldl_cons]
    by_cases hcase : nb ∈ vis ∨ nb ∈ sched
    · rw [if_pos hcase]
      exact ih vis q sched
    · rw [if_neg hcase]
      refine Nat.le_trans (ih vis (q ++ [nb]) (insert nb sched)) ?_
      simp only [bfsMeasure, List.length_append, List.length_singleton]
      have hins : insert nb sched ∪ vis = insert nb (sched ∪ vis) := by
        rw [Finset.insert_union]
      rw [hins]
      have hnotmem : nb ∉ sched ∪ vis := by
        rw [Finset.mem_union]
        tauto
      rw [Finset.card_insert_of_not_mem hnotmem]
      have hcard := hb (insert nb (sched ∪ vis))
      rw [Finset.card_insert_of_not_mem hnotmem] at hcard
      omega

/-- The union of scheduled and visited cells never shrinks when a
dequeued cell is moved from scheduled to visited. -/
theorem erase_insert_union_superset [DecidableEq ι] (sched vis : Finset ι) (a : ι) :
    sched ∪ vis ⊆ sched.erase a ∪ insert a vis := by
  intro x hx
  by_cases hxa : x = a
  · subst hxa
    exact Finset.mem_union_right _ (Finset.mem_insert_self x vis)
  · rcases Finset.mem_union.mp hx with hx | hx
    · exact Finset.mem_union_left _ (Finset.mem_erase.mpr ⟨hxa, hx⟩)
    · exact Finset.mem_union_right _ (Finset.mem_insert_of_mem hx)

/-- Each cluster-mode flood-fill step strictly decreases the
measure: the pop shortens the queue, skipped cells change nothing else,
and every enqueued neighbor is newly scheduled. -/
theorem clusterBFSStep_decreases [DecidableEq ι] {ctx : Ctx ι Coord}
    {subset : ConversionSubset} {m : List (ℕ × Attributes)} {cluster : Finset ℕ}
    (hb : ∀ t : Finset ι, t.card ≤ ctx.bound) :
    ∀ s s', clusterBFSStep ctx subset m cluster s = some s' →
      bfsMeasure ctx.bound s'.queue s'.scheduled s'.visited <
        bfsMeasure ctx.bound s.queue s.scheduled s.visited := by
  intro s s' hstep
  rcases s with ⟨queue, visited, scheduled, ita⟩
  cases queue with
  | nil => exact absurd hstep (by simp [clusterBFSStep])
  | cons this rest =>
    have hmono : (scheduled ∪ visited).card ≤ (scheduled ∪ insert this visited).card :=
      Finset.card_le_card
        (Finset.union_subset_union_right (Finset.subset_insert this visited))
    unfold clusterBFSStep at hstep
    dsimp only at hstep
    split at hstep
    · injection hstep with hstep
      subst hstep
      simp only [bfsMeasure, List.length_cons]
      omega
    · split at hstep
      · injection hstep with hstep
        subst hstep
        simp only [bfsMeasure, List.length_cons]
        omega
      · split at hstep
        · injection hstep with hstep
          subst hstep
          dsimp only
          refine Nat.lt_of_le_of_lt
            (enqueueNeighbors_measure hb (ctx.k_ring1 this) (insert this visited)
              rest scheduled) ?_
          simp only [bfsMeasure, List.length_cons]
          omega
        · injection hstep with hstep
          subst hstep
          simp only [bfsMeasure, List.length_cons]
          omega

/-- Each sweep-mode step strictly decreases the measure: the dequeued
cell moves from scheduled to visited, so the tracked union never
shrinks, and every enqueued neighbor is newly scheduled. -/
theorem sweepStep_decreases [DecidableEq ι] {ctx : Ctx ι Coord}
    {subset : ConversionSubset} {compact : Bool}
    (hb : ∀ t : Finset ι, t.card ≤ ctx.bound) :
    ∀ s s', sweepStep ctx subset compact s = some s' →
      bfsMeasure ctx.bound s'.queue s'.scheduled s'.visited <
        bfsMeasure ctx.bound s.queue s.scheduled s.visited := by
  intro s s' hstep
  rcases s with ⟨queue, visited, scheduled, buckets, grouped⟩
  cases queue with
  | nil => exact absurd hstep (by simp [sweepStep])
  | cons this rest =>
    have hmono : (scheduled ∪ visited).card ≤
        (scheduled.erase this ∪ insert this visited).card :=
      Finset.card_le_card (erase_insert_union_superset scheduled visited this)
    unfold sweepStep at hstep
    dsimp only at hstep
    split at hstep
    · injection hstep with hstep
      subst hstep
      simp only [bfsMeasure, List.length_cons]
      omega
    · injection hstep with hstep
      subst hstep
      dsimp only
      refine Nat.lt_of_le_of_lt
        (enqueueNeighbors_measure hb (ctx.k_ring1 this) (insert this visited)
          rest (scheduled.erase this)) ?_
      simp only [bfsMeasure, List.length_cons]
      omega

/-- Claim C10: all converter loops terminate within their fuel.  The
per-tile loops are fueled with exact bounds: adding any extra fuel does
not change their result.  For the region grower the bound `1 + 9 * #keys`
is unconditional; for the outer cluster loop the positional map's length
suffices because every iteration retires at least its occupied seed; for
the two hex flood fills the bound `1 + 2 * ctx.bound` requires the cell
universe to have at most `ctx.bound` cells (2^64 for the real
`H3Index`), since every cell is enqueued at most once. -/
theorem converter_loops_terminate [DecidableEq ι] [Fintype ι] (ctx : Ctx ι Coord)
    (subset : ConversionSubset) (compact : Bool) (m : List (ℕ × α)) (seed : ℕ)
    (tile_size : ℕ × ℕ) (mC : List (ℕ × Attributes)) (cluster : Finset ℕ)
    (entry : ι) (ita : List (Attributes × List ι))
    (hcard : Fintype.card ι ≤ ctx.bound) :
    (∀ extra : ℕ, loopF (growStep (keysOfMap m) tile_size) (fun s => s.2)
        (1 + 9 * (keysOfMap m).card + extra) ([seed], ∅) =
      grow_region_starting_with_index m seed tile_size) ∧
    (∀ extra : ℕ, loopF (clusterOuterStep ctx subset) (fun s => s.2)
        ((buildAttributesByPos subset.banddata).length + extra)
        (buildAttributesByPos subset.banddata, []) =
      cluster_collect ctx subset) ∧
    (∀ extra : ℕ, loopF (clusterBFSStep ctx subset mC cluster) (fun s => s.ita)
        (1 + 2 * ctx.bound + extra)
        { queue := [entry], visited := ∅, scheduled := {entry}, ita := ita } =
      cluster_hex_grow ctx subset mC cluster entry ita) ∧
    (∀ extra : ℕ, loopF (sweepStep ctx subset compact) (sweepOut ctx subset compact)
        (1 + 2 * ctx.bound + extra)
        { queue := [ctx.from_coordinate (ctx.pixel_to_coordinate
            subset.tile.center_pixel)],
          visited := ∅, scheduled := ∅, buckets := [], grouped := [] } =
      convert_subset_by_checking_index_positions ctx subset compact) := by
  have hb : ∀ t : Finset ι, t.card ≤ ctx.bound :=
    fun t => Nat.le_trans (Finset.card_le_univ t) hcard
  refine ⟨?_, ?_, ?_, ?_⟩
  · intro extra
    unfold grow_region_starting_with_index
    refine loopF_congr _ _ (growMeasure (keysOfMap m))
      (growStep_decreases (keysOfMap m) tile_size) _ _ _ ?_ ?_
    · simp only [growMeasure, List.length_cons, List.length_nil, Finset.sdiff_empty]
      omega
    · simp only [growMeasure, List.length_cons, List.length_nil, Finset.sdiff_empty]
      omega
  · intro extra
    unfold cluster_collect
    refine loopF_congr _ _ (fun s => s.1.length)
      (clusterOuterStep_decreases ctx subset) _ _ _ ?_ ?_
    · dsimp only
      omega
    · dsimp only
      omega
  · intro extra
    unfold cluster_hex_grow
    refine loopF_congr _ _
      (fun s : ClusterBFS ι => bfsMeasure ctx.bound s.queue s.scheduled s.visited)
      (fun s s' h => clusterBFSStep_decreases hb s s' h) _ _ _ ?_ ?_
    · simp only [bfsMeasure, List.length_cons, List.length_nil, Finset.union_empty,
        Finset.card_singleton]
      omega
    · simp only [bfsMeasure, List.length_cons, List.length_nil, Finset.union_empty,
        Finset.card_singleton]
      omega
  · intro extra
    unfold convert_subset_by_checking_index_positions
    refine loopF_congr _ _
      (fun s : SweepState ι => bfsMeasure ctx.bound s.queue s.scheduled s.visited)
      (fun s s' h => sweepStep_decreases hb s s' h) _ _ _ ?_ ?_
    · simp only [bfsMeasure, List.length_cons, List.length_nil, Finset.union_empty,
        Finset.card_empty]
      omega
    · simp only [bfsMeasure, List.length_cons, List.length_nil, Finset.union_empty,
        Finset.card_empty]
      omega

/-- Witness for claim C10 at the concrete instance: with four cells and
`bound = 4`, extra fuel does not change the sweep converter's result. -/
theorem converter_loops_terminate_witness :
    Fintype.card (Fin 4) ≤ witnessCtx.bound ∧
    loopF (sweepStep witnessCtx witnessSubset false) (sweepOut witnessCtx witnessSubset
      false) (1 + 2 * witnessCtx.bound + 7)
      { queue := [witnessCtx.from_coordinate (witnessCtx.pixel_to_coordinate
          witnessSubset.tile.center_pixel)],
        visited := ∅, scheduled := ∅, buckets := [], grouped := [] } =
      convert_subset_by_checking_index_positions witnessCtx witnessSubset false :=
  ⟨by decide,
   (converter_loops_terminate witnessCtx witnessSubset false ([((2 : ℕ), (0 : ℕ))])
     2 (3, 3) [] ∅ 0 [] (by decide)).2.2.2 7⟩

/-- A prefix covers at least as much as its extension. -/
theorem cover_of_prefix {c1 c2 : PathCell} (h : c1 <+: c2) : cover c2 ⊆ cover c1 := by
  rcases h with ⟨t, rfl⟩
  intro f hf i hi
  rw [← List.get?_append hi]
  exact hf i (Nat.lt_of_lt_of_le hi (by simp))

/-- Every cell's footprint lies inside its parent's. -/
theorem cover_subset_parent (c : PathCell) : cover c ⊆ cover (pathParent c) :=
  cover_of_prefix (List.dropLast_prefix c)

/-- A parent's footprint is exactly the union of its children's. -/
theorem mem_cover_iff_children {p : PathCell} {f : ℕ → Fin 7} :
    f ∈ cover p ↔ ∃ c ∈ pathChildren p, f ∈ cover c := by
  constructor
  · intro hf
    refine ⟨p ++ [f p.length], List.mem_map.mpr ⟨f p.length, List.mem_finRange _, rfl⟩, ?_⟩
    intro i hi
    rcases Nat.lt_or_ge i p.length with hlt | hge
    · rw [List.get?_append hlt]
      exact hf i hlt
    · have hieq : i = p.length := by
        simp only [List.length_append, List.length_cons, List.length_nil] at hi
        omega
      subst hieq
      exact List.get?_concat_length p (f p.length)
  · rintro ⟨c, hc, hf⟩
    rcases List.mem_map.mp hc with ⟨d, _, rfl⟩
    exact cover_of_prefix ⟨[d], rfl⟩ hf

/-- The parent of each child is the cell itself. -/
theorem pathParent_of_child {p c : PathCell} (hc : c ∈ pathChildren p) :
    pathParent c = p := by
  rcases List.mem_map.mp hc with ⟨d, _, rfl⟩
  exact List.dropLast_concat

/-- Membership in the cells of a stack. -/
theorem mem_allStackCells {s : H3IndexStack ι} {x : ι} :
    x ∈ allStackCells s ↔ ∃ e ∈ s, x ∈ e.2 := by
  unfold allStackCells
  rw [List.mem_flatMap]

/-- Cells at one resolution are cells of the stack. -/
theorem stackCellsAt_subset_allStackCells {s : H3IndexStack ι} {res : ℕ} {x : ι}
    (h : x ∈ stackCellsAt s res) : x ∈ allStackCells s := by
  unfold stackCellsAt at h
  rcases List.mem_flatMap.mp h with ⟨e, he, hx⟩
  split at hx
  · exact mem_allStackCells.mpr ⟨e, he, hx⟩
  · exact absurd hx (List.not_mem_nil x)

/-- Footprint of a stack with a prepended resolution group. -/
theorem mem_coverStack_cons {r : ℕ} {cells : List PathCell}
    {st : H3IndexStack PathCell} {f : ℕ → Fin 7} :
    f ∈ coverStack ((r, cells) :: st) ↔ f ∈ coverList cells ∨ f ∈ coverStack st := by
  unfold coverStack coverList
  simp only [Set.mem_setOf_eq, mem_allStackCells]
  constructor
  · rintro ⟨c, ⟨e, he, hc⟩, hf⟩
    rcases List.mem_cons.mp he with rfl | he
    · exact Or.inl ⟨c, hc, hf⟩
    · exact Or.inr ⟨c, ⟨e, he, hc⟩, hf⟩
  · rintro (⟨c, hc, hf⟩ | ⟨c, ⟨e, he, hc⟩, hf⟩)
    · exact ⟨c, ⟨(r, cells), List.mem_cons_self _ _, hc⟩, hf⟩
    · exact ⟨c, ⟨e, List.mem_cons_of_mem _ he, hc⟩, hf⟩

/-- Footprint of a concatenation of stacks. -/
theorem mem_coverStack_append {st st2 : H3IndexStack PathCell} {f : ℕ → Fin 7} :
    f ∈ coverStack (st ++ st2) ↔ f ∈ coverStack st ∨ f ∈ coverStack st2 := by
  unfold coverStack coverList
  simp only [Set.mem_setOf_eq, mem_allStackCells]
  constructor
  · rintro ⟨c, ⟨e, he, hc⟩, hf⟩
    rcases List.mem_append.mp he with he | he
    · exact Or.inl ⟨c, ⟨e, he, hc⟩, hf⟩
    · exact Or.inr ⟨c, ⟨e, he, hc⟩, hf⟩
  · rintro (⟨c, ⟨e, he, hc⟩, hf⟩ | ⟨c, ⟨e, he, hc⟩, hf⟩)
    · exact ⟨c, ⟨e, List.mem_append_left _ he, hc⟩, hf⟩
    · exact ⟨c, ⟨e, List.mem_append_right _ he, hc⟩, hf⟩

/-- One compaction level preserves the footprint: removed children are
covered by their added parent, and each added parent is complete, so its
footprint is covered by cells already present. -/
theorem mem_coverStack_compactLevelStep {res : ℕ} {s : H3IndexStack PathCell}
    {f : ℕ → Fin 7} :
    f ∈ coverStack (compactLevelStep pathParent pathChildren res s) ↔
      f ∈ coverStack s := by
  simp only [compactLevelStep]
  split
  · exact Iff.rfl
  · rename_i hne
    rw [mem_coverStack_cons]
    constructor
    · rintro (hf | hf)
      · rcases hf with ⟨p, hp, hfp⟩
        rcases List.mem_filter.mp hp with ⟨-, hcomplete⟩
        rcases mem_cover_iff_children.mp hfp with ⟨c, hc, hfc⟩
        have hcat : c ∈ stackCellsAt s res := by
          have h2 := List.all_eq_true.mp hcomplete c hc
          exact elemBy_eq_true.mp h2
        exact ⟨c, stackCellsAt_subset_allStackCells hcat, hfc⟩
      · rcases hf with ⟨c, hcall, hfc⟩
        rcases mem_allStackCells.mp hcall with ⟨e', he', hc⟩
        rcases List.mem_map.mp he' with ⟨e, he, hmap⟩
        by_cases hkey : e.1 = res
        · rw [if_pos hkey] at hmap
          rw [← hmap] at hc
          rcases List.mem_filter.mp hc with ⟨hc2, -⟩
          exact ⟨c, mem_allStackCells.mpr ⟨e, he, hc2⟩, hfc⟩
        · rw [if_neg hkey] at hmap
          rw [← hmap] at hc
          exact ⟨c, mem_allStackCells.mpr ⟨e, he, hc⟩, hfc⟩
    · rintro ⟨c, hcall, hfc⟩
      rcases mem_allStackCells.mp hcall with ⟨e, he, hc⟩
      by_cases hkey : e.1 = res
      · by_cases hpar : pathParent c ∈
            ((stackCellsAt s res).map pathParent).dedup.filter
              (fun p => (pathChildren p).all (fun c2 => elemBy c2 (stackCellsAt s res)))
        · exact Or.inl ⟨pathParent c, hpar, cover_subset_parent c hfc⟩
        · refine Or.inr ⟨c, mem_allStackCells.mpr
            ⟨(e.1, e.2.filter (fun c2 => ! elemBy (pathParent c2)
              (((stackCellsAt s res).map pathParent).dedup.filter
                (fun p => (pathChildren p).all (fun c3 => elemBy c3
                  (stackCellsAt s res)))))), ?_, ?_⟩, hfc⟩
          · refine List.mem_map.mpr ⟨e, he, ?_⟩
            rw [if_pos hkey]
          · refine List.mem_filter.mpr ⟨hc, ?_⟩
            simp only [elemBy, Bool.not_eq_true', decide_eq_false_iff_not]
            exact hpar
      · refine Or.inr ⟨c, mem_allStackCells.mpr ⟨e, ?_, hc⟩, hfc⟩
        refine List.mem_map.mpr ⟨e, he, ?_⟩
        rw [if_neg hkey]

/-- Full hierarchical compaction preserves the footprint. -/
theorem mem_coverStack_compactStack {s : H3IndexStack PathCell} {f : ℕ → Fin 7} :
    f ∈ coverStack (compactStack pathParent pathChildren s) ↔ f ∈ coverStack s := by
  unfold compactStack
  have hfold : ∀ (l : List ℕ) (acc : H3IndexStack PathCell),
      f ∈ coverStack (l.foldl
        (fun acc2 k => compactLevelStep pathParent pathChildren (maxStackRes s - k) acc2)
        acc) ↔ f ∈ coverStack acc := by
    intro l
    induction l with
    | nil => exact fun acc => Iff.rfl
    | cons k l ih =>
      intro acc
      rw [List.foldl_cons, ih, mem_coverStack_compactLevelStep]
  exact hfold _ s

/-- The empty stack covers nothing. -/
theorem not_mem_coverStack_nil {f : ℕ → Fin 7} :
    f ∉ coverStack ([] : H3IndexStack PathCell) := by
  rintro ⟨c, hc, -⟩
  exact absurd hc (List.not_mem_nil c)

/-- The empty grouped result covers nothing under any key. -/
theorem not_mem_coverKey_nil {k : Attributes} {f : ℕ → Fin 7} :
    f ∉ coverKey ([] : GroupedH3Indexes PathCell) k := by
  rintro ⟨e, he, -⟩
  exact absurd he (List.not_mem_nil e)

/-- Appending a cell list at a resolution adds exactly its footprint,
for either compact flag, provided the context carries the path
hierarchy. -/
theorem mem_coverStack_append_to_resolution {ctx : Ctx PathCell Coord}
    (hpar : ctx.parentCell = pathParent) (hchild : ctx.childCells = pathChildren)
    {st : H3IndexStack PathCell} {res : ℕ} {cells : List PathCell} {compact : Bool}
    {f : ℕ → Fin 7} :
    f ∈ coverStack (append_to_resolution ctx st res cells compact) ↔
      f ∈ coverList cells ∨ f ∈ coverStack st := by
  unfold append_to_resolution
  split
  · rw [hpar, hchild, mem_coverStack_compactStack, mem_coverStack_cons]
  · rw [mem_coverStack_cons]

/-- The workhorse for grouped-result coverage: an entry update whose
stack operation adds exactly the footprint `S` changes the coverage of
key `k` by `S` when `k` is the updated key, and not at all otherwise. -/
theorem mem_coverKey_modifyEntry {g : GroupedH3Indexes PathCell} {a : Attributes}
    {F : H3IndexStack PathCell → H3IndexStack PathCell} (S : Set (ℕ → Fin 7))
    (hF : ∀ (st : H3IndexStack PathCell) (f : ℕ → Fin 7),
      f ∈ coverStack (F st) ↔ f ∈ S ∨ f ∈ coverStack st)
    {k : Attributes} {f : ℕ → Fin 7} :
    f ∈ coverKey (modifyEntry g a F) k ↔ f ∈ coverKey g k ∨ (k = a ∧ f ∈ S) := by
  unfold modifyEntry setEntryA
  split
  · rename_i hany
    constructor
    · rintro ⟨e', he', hk, hf⟩
      rcases List.mem_map.mp he' with ⟨e, he, hmap⟩
      by_cases hea : e.1 = a
      · rw [if_pos hea] at hmap
        rw [← hmap] at hk hf
        rcases (hF e.2 f).mp hf with hS | hcov
        · exact Or.inr ⟨by rw [← hk, hea], hS⟩
        · exact Or.inl ⟨e, he, hk, hcov⟩
      · rw [if_neg hea] at hmap
        rw [← hmap] at hk hf
        exact Or.inl ⟨e, he, hk, hf⟩
    · rintro (⟨e, he, hk, hf⟩ | ⟨hka, hS⟩)
      · by_cases hea : e.1 = a
        · refine ⟨(e.1, F e.2), List.mem_map.mpr ⟨e, he, by rw [if_pos hea]⟩, hk, ?_⟩
          exact (hF e.2 f).mpr (Or.inr hf)
        · exact ⟨e, List.mem_map.mpr ⟨e, he, by rw [if_neg hea]⟩, hk, hf⟩
      · rcases List.any_eq_true.mp hany with ⟨e, he, hdec⟩
        have hea : e.1 = a := of_decide_eq_true hdec
        refine ⟨(e.1, F e.2), List.mem_map.mpr ⟨e, he, by rw [if_pos hea]⟩,
          by rw [hea, hka], ?_⟩
        exact (hF e.2 f).mpr (Or.inl hS)
  · constructor
    · rintro ⟨e', he', hk, hf⟩
      rcases List.mem_append.mp he' with he' | he'
      · exact Or.inl ⟨e', he', hk, hf⟩
      · rcases List.mem_singleton.mp he' with rfl
        rcases (hF [] f).mp hf with hS | habs
        · exact Or.inr ⟨by rw [← hk], hS⟩
        · exact absurd habs not_mem_coverStack_nil
    · rintro (⟨e, he, hk, hf⟩ | ⟨hka, hS⟩)
      · exact ⟨e, List.mem_append_left _ he, hk, hf⟩
      · exact ⟨(a, F []), List.mem_append_right _ (List.mem_singleton.mpr rfl),
          by rw [hka], (hF [] f).mpr (Or.inl hS)⟩

/-- Folding bucket entries into a grouped result (the converters' final
folds, the sweep drain) adds exactly each entry's footprint under its
key. -/
theorem mem_coverKey_fold_ita {ctx : Ctx PathCell Coord}
    (hpar : ctx.parentCell = pathParent) (hchild : ctx.childCells = pathChildren)
    {res : ℕ} {compact : Bool} {k : Attributes} {f : ℕ → Fin 7} :
    ∀ (entries : List (Attributes × List PathCell)) (g : GroupedH3Indexes PathCell),
      f ∈ coverKey (entries.foldl
        (fun g2 e => modifyEntry g2 e.1
          (fun st => append_to_resolution ctx st res e.2 compact)) g) k ↔
      f ∈ coverKey g k ∨ ∃ e ∈ entries, k = e.1 ∧ f ∈ coverList e.2 := by
  intro entries
  induction entries with
  | nil =>
    intro g
    simp only [List.foldl_nil]
    constructor
    · exact fun h => Or.inl h
    · rintro (h | ⟨e, he, -, -⟩)
      · exact h
      · exact absurd he (List.not_mem_nil e)
  | cons e entries ih =>
    intro g
    rw [List.foldl_cons, ih]
    rw [mem_coverKey_modifyEntry (coverList e.2)
      (fun st f2 => mem_coverStack_append_to_resolution hpar hchild)]
    constructor
    · rintro ((h | ⟨hka, hS⟩) | ⟨e2, he2, hk2, hf2⟩)
      · exact Or.inl h
      · exact Or.inr ⟨e, List.mem_cons_self e entries, hka, hS⟩
      · exact Or.inr ⟨e2, List.mem_cons_of_mem e he2, hk2, hf2⟩
    · rintro (h | ⟨e2, he2, hk2, hf2⟩)
      · exact Or.inl (Or.inl h)
      · rcases List.mem_cons.mp he2 with rfl | he2
        · exact Or.inl (Or.inr ⟨hk2, hf2⟩)
        · exact Or.inr ⟨e2, he2, hk2, hf2⟩

/-- Merging one per-tile grouped result into the accumulator (the
aggregator's inner fold, with uncompacted appends) adds exactly its
coverage per key. -/
theorem mem_coverKey_fold_merge {k : Attributes} {f : ℕ → Fin 7} :
    ∀ (gi : GroupedH3Indexes PathCell) (acc : GroupedH3Indexes PathCell),
      f ∈ coverKey (gi.foldl
        (fun acc2 e => modifyEntry acc2 e.1 (fun st => st ++ e.2)) acc) k ↔
      f ∈ coverKey acc k ∨ f ∈ coverKey gi k := by
  intro gi
  induction gi with
  | nil =>
    intro acc
    simp only [List.foldl_nil]
    constructor
    · exact fun h => Or.inl h
    · rintro (h | h)
      · exact h
      · exact absurd h not_mem_coverKey_nil
  | cons e gi ih =>
    intro acc
    rw [List.foldl_cons, ih]
    rw [mem_coverKey_modifyEntry (coverStack e.2) (fun st f2 => by
      rw [mem_coverStack_append]
      exact Or.comm)]
    constructor
    · rintro ((h | ⟨hka, hS⟩) | h)
      · exact Or.inl h
      · exact Or.inr ⟨e, List.mem_cons_self e gi, hka.symm, hS⟩
      · rcases h with ⟨e2, he2, hk2, hf2⟩
        exact Or.inr ⟨e2, List.mem_cons_of_mem e he2, hk2, hf2⟩
    · rintro (h | ⟨e2, he2, hk2, hf2⟩)
      · exact Or.inl (Or.inl h)
      · rcases List.mem_cons.mp he2 with rfl | he2
        · exact Or.inl (Or.inr ⟨hk2.symm, hf2⟩)
        · exact Or.inr ⟨e2, he2, hk2, hf2⟩

/-- Per-entry compaction of a grouped result preserves per-key
coverage. -/
theorem mem_coverKey_map_compactStack {g : GroupedH3Indexes PathCell}
    {k : Attributes} {f : ℕ → Fin 7} :
    f ∈ coverKey (g.map (fun e => (e.1, compactStack pathParent pathChildren e.2))) k ↔
      f ∈ coverKey g k := by
  constructor
  · rintro ⟨e', he', hk, hf⟩
    rcases List.mem_map.mp he' with ⟨e, he, hmap⟩
    rw [← hmap] at hk hf
    exact ⟨e, he, hk, mem_coverStack_compactStack.mp hf⟩
  · rintro ⟨e, he, hk, hf⟩
    exact ⟨(e.1, compactStack pathParent pathChildren e.2),
      List.mem_map.mpr ⟨e, he, rfl⟩, hk, mem_coverStack_compactStack.mpr hf⟩

/-- The aggregator's coverage per key is the union of the per-tile
coverages, for either compact flag. -/
theorem mem_coverKey_aggregate {results : List (GroupedH3Indexes PathCell)}
    {compact : Bool} {k : Attributes} {f : ℕ → Fin 7} :
    f ∈ coverKey (aggregate pathParent pathChildren results compact) k ↔
      ∃ gi ∈ results, f ∈ coverKey gi k := by
  have hfold : ∀ (rs : List (GroupedH3Indexes PathCell)) (acc : GroupedH3Indexes PathCell),
      f ∈ coverKey (rs.foldl
        (fun acc2 gi => gi.foldl
          (fun acc3 e => modifyEntry acc3 e.1 (fun st => st ++ e.2)) acc2) acc) k ↔
      f ∈ coverKey acc k ∨ ∃ gi ∈ rs, f ∈ coverKey gi k := by
    intro rs
    induction rs with
    | nil =>
      intro acc
      simp only [List.foldl_nil]
      constructor
      · exact fun h => Or.inl h
      · rintro (h | ⟨gi, hgi, -⟩)
        · exact h
        · exact absurd hgi (List.not_mem_nil gi)
    | cons gi rs ih =>
      intro acc
      rw [List.foldl_cons, ih, mem_coverKey_fold_merge]
      constructor
      · rintro ((h | h) | h)
        · exact Or.inl h
        · exact Or.inr ⟨gi, List.mem_cons_self gi rs, h⟩
        · rcases h with ⟨gi2, hgi2, h⟩
          exact Or.inr ⟨gi2, List.mem_cons_of_mem gi hgi2, h⟩
      · rintro (h | ⟨gi2, hgi2, h⟩)
        · exact Or.inl (Or.inl h)
        · rcases List.mem_cons.mp hgi2 with rfl | hgi2
          · exact Or.inl (Or.inr h)
          · exact Or.inr ⟨gi2, hgi2, h⟩
  unfold aggregate
  split
  · rw [mem_coverKey_map_compactStack, hfold]
    constructor
    · rintro (h | h)
      · exact absurd h not_mem_coverKey_nil
      · exact h
    · exact fun h => Or.inr h
  · rw [hfold]
    constructor
    · rintro (h | h)
      · exact absurd h not_mem_coverKey_nil
      · exact h
    · exact fun h => Or.inr h

/-- Cluster mode's per-key coverage is determined by its collection
phase, which never consults the compact flag. -/
theorem mem_coverKey_convert_cluster {ctx : Ctx PathCell Coord}
    (hpar : ctx.parentCell = pathParent) (hchild : ctx.childCells = pathChildren)
    {subset : ConversionSubset} {compact : Bool} {k : Attributes} {f : ℕ → Fin 7} :
    f ∈ coverKey (convert_subset_by_filtering_and_region_growing ctx subset compact) k ↔
      ∃ e ∈ cluster_collect ctx subset, k = e.1 ∧ f ∈ coverList e.2 := by
  unfold convert_subset_by_filtering_and_region_growing
  rw [mem_coverKey_fold_ita hpar hchild]
  constructor
  · rintro (h | h)
    · exact absurd h not_mem_coverKey_nil
    · exact h
  · exact fun h => Or.inr h

/-- The sweep drain has the same per-key coverage for two states with
equal buckets and coverage-equal grouped results, for any two compact
flags. -/
theorem sweepOut_cover_congr {ctx : Ctx PathCell Coord}
    (hpar : ctx.parentCell = pathParent) (hchild : ctx.childCells = pathChildren)
    {subset : ConversionSubset} {c1 c2 : Bool} (s1 s2 : SweepState PathCell)
    (hb : s1.buckets = s2.buckets)
    (hg : ∀ (k : Attributes) (f : ℕ → Fin 7),
      f ∈ coverKey s1.grouped k ↔ f ∈ coverKey s2.grouped k)
    (k : Attributes) (f : ℕ → Fin 7) :
    f ∈ coverKey (sweepOut ctx subset c1 s1) k ↔
      f ∈ coverKey (sweepOut ctx subset c2 s2) k := by
  unfold sweepOut
  rw [mem_coverKey_fold_ita hpar hchild, mem_coverKey_fold_ita hpar hchild, hb, hg k f]

/-- The sweep loop's traversal, buckets and flush points never consult
the compact flag, so two runs from states differing only in (coverage
equal) grouped results produce coverage-equal grouped results. -/
theorem sweep_cover_bisim {ctx : Ctx PathCell Coord}
    (hpar : ctx.parentCell = pathParent) (hchild : ctx.childCells = pathChildren)
    {subset : ConversionSubset} (c1 c2 : Bool) :
    ∀ (fuel : ℕ) (q : List PathCell) (vis sched : Finset PathCell)
      (bkts : List (Attributes × List PathCell)) (g1 g2 : GroupedH3Indexes PathCell),
      (∀ (k : Attributes) (f : ℕ → Fin 7), f ∈ coverKey g1 k ↔ f ∈ coverKey g2 k) →
      ∀ (k : Attributes) (f : ℕ → Fin 7),
        f ∈ coverKey (loopF (sweepStep ctx subset c1) (sweepOut ctx subset c1) fuel
          ⟨q, vis, sched, bkts, g1⟩) k ↔
        f ∈ coverKey (loopF (sweepStep ctx subset c2) (sweepOut ctx subset c2) fuel
          ⟨q, vis, sched, bkts, g2⟩) k := by
  intro fuel
  induction fuel with
  | zero =>
    intro q vis sched bkts g1 g2 hg k f
    exact sweepOut_cover_congr hpar hchild ⟨q, vis, sched, bkts, g1⟩
      ⟨q, vis, sched, bkts, g2⟩ rfl hg k f
  | succ n ih =>
    intro q vis sched bkts g1 g2 hg k f
    cases q with
    | nil =>
      have h1 : sweepStep ctx subset c1 ⟨[], vis, sched, bkts, g1⟩ = none := rfl
      have h2 : sweepStep ctx subset c2 ⟨[], vis, sched, bkts, g2⟩ = none := rfl
      simp only [loopF]
      rw [h1, h2]
      exact sweepOut_cover_congr hpar hchild ⟨[], vis, sched, bkts, g1⟩
        ⟨[], vis, sched, bkts, g2⟩ rfl hg k f
    | cons this rest =>
      by_cases hbound : ctx.rect_contains_bounds (ctx.cell_coordinate this) = true
      · by_cases hpres : (readAttributes subset.banddata
            (cellArrayPos ctx subset this)).any (fun a => a.isSome) = true
        · by_cases hflush : (getEntryA bkts (readAttributes subset.banddata
              (cellArrayPos ctx subset this)) [] ++ [this]).length > 20000
          · have h1 : sweepStep ctx subset c1 ⟨this :: rest, vis, sched, bkts, g1⟩ =
                some ⟨(enqueueNeighbors (ctx.k_ring1 this) (insert this vis) rest
                    (sched.erase this)).1,
                  insert this vis,
                  (enqueueNeighbors (ctx.k_ring1 this) (insert this vis) rest
                    (sched.erase this)).2,
                  setEntryA bkts (readAttributes subset.banddata
                    (cellArrayPos ctx subset this)) [] (fun _ => []),
                  modifyEntry g1 (readAttributes subset.banddata
                    (cellArrayPos ctx subset this))
                    (fun st => append_to_resolution ctx st subset.h3_resolution
                      (getEntryA bkts (readAttributes subset.banddata
                        (cellArrayPos ctx subset this)) [] ++ [this]) c1)⟩ := by
              simp only [sweepStep]
              rw [if_neg (not_not_intro hbound), if_pos hpres, if_pos hflush]
            have h2 : sweepStep ctx subset c2 ⟨this :: rest, vis, sched, bkts, g2⟩ =
                some ⟨(enqueueNeighbors (ctx.k_ring1 this) (insert this vis) rest
                    (sched.erase this)).1,
                  insert this vis,
                  (enqueueNeighbors (ctx.k_ring1 this) (insert this vis) rest
                    (sched.erase this)).2,
                  setEntryA bkts (readAttributes subset.banddata
                    (cellArrayPos ctx subset this)) [] (fun _ => []),
                  modifyEntry g2 (readAttributes subset.banddata
                    (cellArrayPos ctx subset this))
                    (fun st => append_to_resolution ctx st subset.h3_resolution
                      (getEntryA bkts (readAttributes subset.banddata
                        (cellArrayPos ctx subset this)) [] ++ [this]) c2)⟩ := by
              simp only [sweepStep]
              rw [if_neg (not_not_intro hbound), if_pos hpres, if_pos hflush]
            simp only [loopF]
            rw [h1, h2]
            refine ih _ _ _ _ _ _ (fun k2 f2 => ?_) k f
            rw [mem_coverKey_modifyEntry
              (coverList (getEntryA bkts (readAttributes subset.banddata
                (cellArrayPos ctx subset this)) [] ++ [this]))
              (fun st f3 => mem_coverStack_append_to_resolution hpar hchild)]
            rw [mem_coverKey_modifyEntry
              (coverList (getEntryA bkts (readAttributes subset.banddata
                (cellArrayPos ctx subset this)) [] ++ [this]))
              (fun st f3 => mem_coverStack_append_to_resolution hpar hchild)]
            rw [hg k2 f2]
          · have h1 : sweepStep ctx subset c1 ⟨this :: rest, vis, sched, bkts, g1⟩ =
                some ⟨(enqueueNeighbors (ctx.k_ring1 this) (insert this vis) rest
                    (sched.erase this)).1,
                  insert this vis,
                  (enqueueNeighbors (ctx.k_ring1 this) (insert this vis) rest
                    (sched.erase this)).2,
                  setEntryA bkts (readAttributes subset.banddata
                    (cellArrayPos ctx subset this)) []
                    (fun _ => getEntryA bkts (readAttributes subset.banddata
                      (cellArrayPos ctx subset this)) [] ++ [this]),
                  g1⟩ := by
              simp only [sweepStep]
              rw [if_neg (not_not_intro hbound), if_pos hpres, if_neg hflush]
            have h2 : sweepStep ctx subset c2 ⟨this :: rest, vis, sched, bkts, g2⟩ =
                some ⟨(enqueueNeighbors (ctx.k_ring1 this) (insert this vis) rest
                    (sched.erase this)).1,
                  insert this vis,
                  (enqueueNeighbors (ctx.k_ring1 this) (insert this vis) rest
                    (sched.erase this)).2,
                  setEntryA bkts (readAttributes subset.banddata
                    (cellArrayPos ctx subset this)) []
                    (fun _ => getEntryA bkts (readAttributes subset.banddata
                      (cellArrayPos ctx subset this)) [] ++ [this]),
                  g2⟩ := by
              simp only [sweepStep]
              rw [if_neg (not_not_intro hbound), if_pos hpres, if_neg hflush]
            simp only [loopF]
            rw [h1, h2]
            exact ih _ _ _ _ _ _ hg k f
        · have h1 : sweepStep ctx subset c1 ⟨this :: rest, vis, sched, bkts, g1⟩ =
              some ⟨(enqueueNeighbors (ctx.k_ring1 this) (insert this vis) rest
                  (sched.erase this)).1,
                insert this vis,
                (enqueueNeighbors (ctx.k_ring1 this) (insert this vis) rest
                  (sched.erase this)).2,
                bkts, g1⟩ := by
            simp only [sweepStep]
            rw [if_neg (not_not_intro hbound), if_neg hpres]
          have h2 : sweepStep ctx subset c2 ⟨this :: rest, vis, sched, bkts, g2⟩ =
              some ⟨(enqueueNeighbors (ctx.k_ring1 this) (insert this vis) rest
                  (sched.erase this)).1,
                insert this vis,
                (enqueueNeighbors (ctx.k_ring1 this) (insert this vis) rest
                  (sched.erase this)).2,
                bkts, g2⟩ := by
            simp only [sweepStep]
            rw [if_neg (not_not_intro hbound), if_neg hpres]
          simp only [loopF]
          rw [h1, h2]
          exact ih _ _ _ _ _ _ hg k f
      · have h1 : sweepStep ctx subset c1 ⟨this :: rest, vis, sched, bkts, g1⟩ =
            some ⟨rest, insert this vis, sched.erase this, bkts, g1⟩ := by
          simp only [sweepStep]
          rw [if_pos hbound]
        have h2 : sweepStep ctx subset c2 ⟨this :: rest, vis, sched, bkts, g2⟩ =
            some ⟨rest, insert this vis, sched.erase this, bkts, g2⟩ := by
          simp only [sweepStep]
          rw [if_pos hbound]
        simp only [loopF]
        rw [h1, h2]
        exact ih _ _ _ _ _ _ hg k f

/-- Sweep mode's per-key coverage does not depend on the compact
flag. -/
theorem mem_coverKey_convert_sweep_flag {ctx : Ctx PathCell Coord}
    (hpar : ctx.parentCell = pathParent) (hchild : ctx.childCells = pathChildren)
    {subset : ConversionSubset} (c1 c2 : Bool) (k : Attributes) (f : ℕ → Fin 7) :
    f ∈ coverKey (convert_subset_by_checking_index_positions ctx subset c1) k ↔
      f ∈ coverKey (convert_subset_by_checking_index_positions ctx subset c2) k := by
  unfold convert_subset_by_checking_index_positions
  exact sweep_cover_bisim hpar hchild c1 c2 _ _ _ _ _ _ _
    (fun k2 f2 => Iff.rfl) k f

/-- Claim C7: for every list of per-tile jobs (tiles with their
capabilities and heuristic mode choices, in any arrival order) and every
attribute key, the conversion result obtained with `compact = true`
covers exactly the same cells as the hierarchical compaction of the
result obtained with `compact = false` - despite sweep mode's
opportunistic per-bucket flushing and the aggregator's single final
compaction. -/
theorem compact_flag_preserves_coverage {Coord : Type}
    (jobs : List (PathGeo Coord × ConversionSubset × Bool)) (k : Attributes) :
    coverKey (convert_tiles_cover_model jobs true) k =
      coverKey ((convert_tiles_cover_model jobs false).map
        (fun e => (e.1, compactStack pathParent pathChildren e.2))) k := by
  apply Set.ext
  intro f
  rw [mem_coverKey_map_compactStack]
  unfold convert_tiles_cover_model
  rw [mem_coverKey_aggregate, mem_coverKey_aggregate]
  have htile : ∀ j : PathGeo Coord × ConversionSubset × Bool, ∀ f2 : ℕ → Fin 7,
      (f2 ∈ coverKey (if j.2.2
          then convert_subset_by_filtering_and_region_growing (pathCtx j.1) j.2.1 true
          else convert_subset_by_checking_index_positions (pathCtx j.1) j.2.1 true) k ↔
        f2 ∈ coverKey (if j.2.2
          then convert_subset_by_filtering_and_region_growing (pathCtx j.1) j.2.1 false
          else convert_subset_by_checking_index_positions (pathCtx j.1) j.2.1 false) k) := by
    intro j f2
    by_cases hm : j.2.2 = true
    · rw [if_pos hm, if_pos hm]
      rw [mem_coverKey_convert_cluster rfl rfl, mem_coverKey_convert_cluster rfl rfl]
    · rw [if_neg hm, if_neg hm]
      exact mem_coverKey_convert_sweep_flag rfl rfl true false k f2
  constructor
  · rintro ⟨gi, hgi, hf⟩
    rcases List.mem_map.mp hgi with ⟨j, hj, rfl⟩
    exact ⟨_, List.mem_map.mpr ⟨j, hj, rfl⟩, (htile j f).mp hf⟩
  · rintro ⟨gi, hgi, hf⟩
    rcases List.mem_map.mp hgi with ⟨j, hj, rfl⟩
    exact ⟨_, List.mem_map.mpr ⟨j, hj, rfl⟩, (htile j f).mpr hf⟩

/-- Claim C8 as stated is false: a failing band read does stop the
reader (its `.unwrap()` panics) and the workers drain as the channels
close, but the failure surfaces to the caller as `ConversionFailed` -
the umbrella error produced from the crossbeam scope result - not as a
`RasterReadError` wrapping the raster failure. -/
theorem read_failure_not_raster_read_error :
    convert_tiles_error_model
        (fun _ => Except.error () : Tile → Except Unit (List (List (Option Value))))
        [{ offset_origin := (0, 0), size := (1, 1) }] =
      Except.error Error.conversionFailed ∧
    Error.conversionFailed ≠ Error.rasterReadError :=
  ⟨rfl, by decide⟩

/-- Claim C8, amended: when reading a band window fails for any tile,
the reader stops at the first failure and the failure surfaces to the
caller as `ConversionFailed` (the umbrella error wrapping the reader
panic caught by the thread scope), not as `RasterReadError`. -/
theorem read_failure_surfaces_as_conversion_failed {ε : Type}
    (readTile : Tile → Except ε (List (List (Option Value)))) (tiles : List Tile)
    (h : ∃ t ∈ tiles, ∃ e0 : ε, readTile t = Except.error e0) :
    convert_tiles_error_model readTile tiles = Except.error Error.conversionFailed := by
  induction tiles with
  | nil =>
    rcases h with ⟨t, ht, -⟩
    exact absurd ht (List.not_mem_nil t)
  | cons t rest ih =>
    rcases h with ⟨t2, ht2, e0, he0⟩
    rcases List.mem_cons.mp ht2 with rfl | ht2
    · unfold convert_tiles_error_model
      rw [he0]
    · unfold convert_tiles_error_model
      cases hr : readTile t with
      | error e1 => rfl
      | ok bd =>
        rw [ih ⟨t2, ht2, e0, he0⟩]

/-- Witness for the amended claim C8 at a concrete failing reader. -/
theorem read_failure_surfaces_as_conversion_failed_witness :
    (∃ t ∈ [({ offset_origin := (0, 0), size := (1, 1) } : Tile)], ∃ e0 : Unit,
      (fun _ => Except.error () : Tile → Except Unit (List (List (Option Value)))) t =
        Except.error e0) ∧
    convert_tiles_error_model
        (fun _ => Except.error () : Tile → Except Unit (List (List (Option Value))))
        [({ offset_origin := (0, 0), size := (1, 1) } : Tile)] =
      Except.error Error.conversionFailed :=
  ⟨⟨{ offset_origin := (0, 0), size := (1, 1) }, List.mem_singleton.mpr rfl, (), rfl⟩,
   read_failure_surfaces_as_conversion_failed
     (fun _ => Except.error () : Tile → Except Unit (List (List (Option Value))))
     [{ offset_origin := (0, 0), size := (1, 1) }]
     ⟨{ offset_origin := (0, 0), size := (1, 1) }, List.mem_singleton.mpr rfl, (), rfl⟩⟩

end H3Raster
